import Mathlib

/-!
# GALIF descriptor generator

A shallow embedding of `descriptors/galif.cpp` (class `galif_generator` of the
imdb library) together with the properties of it that its specification states.

Conventions of the embedding.

* `int`, `uint` and `size_t` values are embedded as `Int` and `Nat`.  The entries of
  the summed-area table and `patchsum` are sums of pixel values and leave the range of
  `int` on large dark images: they are embedded as 32-bit values that wrap around
  (`wrapInt32`).  Sizes, coordinates and counts are embedded without a bound; the
  statements that depend on their range say so.
* `double` and `float` computations whose result is converted to `int` (the feature
  size, the filter size, the corner of a keypoint region) are embedded with IEEE 754
  rounding to nearest after every operation (`roundToDouble`, `roundToFloat`,
  `sqrtDouble`); configuration values and keypoint coordinates are rationals that are
  rounded when they are read.  The first value of the sampling loops is the sum
  `rect.y + halfTileSize` without rounding, which is the `float` sum of the code
  (`sampleStart`) for tile sizes and coordinates of absolute value below `2^22`.
  The scaling factor of `scale` is an exact quotient.
* Signal values (filter entries, canvas entries, responses, histogram entries) live
  in an ordered field `α` (`ℚ` to run the code, `ℝ` where a square root is taken) and
  are embedded exactly; rounding of these values is not part of the embedding.
* A call that does not produce a result (failed `assert`, thrown exception, arithmetic
  without a defined result, a loop that does not end) returns `Except.error`.
* OpenCV (`cv::Rect`, `cv::integral`, `cv::normalize`, `cv::min`, `cv::resize`,
  `cv::getOptimalDFTSize`) is an external library embedded by its documented behaviour.
  The spectral filtering and smoothing stage of `extract` (forward and inverse
  transforms, Gaussian or box blur) is not embedded; its result, the framed and
  smoothed response maps, enters `extract` as the argument `smoothed`.
-/

namespace imdb

/-! ## Basic data -/

/-- Ways in which a call ends without a result. -/
inductive Failure where
  | assertion (what : String)
  | runtime_error (what : String)
  | cv_error (what : String)
  | undefined (what : String)
  | diverges
  deriving DecidableEq

deriving instance DecidableEq for Except

/-- Integer point `cv::Point`. -/
structure Point where
  x : Int
  y : Int
  deriving DecidableEq

/-- Integer rectangle `cv::Rect`. -/
structure Rect where
  x : Int
  y : Int
  width : Int
  height : Int
  deriving DecidableEq

/-- Top-left corner `Rect::tl()`. -/
def Rect.tl (r : Rect) : Point := ⟨r.x, r.y⟩

/-- Bottom-right corner `Rect::br()`. -/
def Rect.br (r : Rect) : Point := ⟨r.x + r.width, r.y + r.height⟩

/-- Intersection `a & b` of two `cv::Rect`; an empty intersection is `Rect()`. -/
def Rect.inter (a b : Rect) : Rect :=
  let x1 := max a.x b.x
  let y1 := max a.y b.y
  let width := min (a.x + a.width) (b.x + b.width) - x1
  let height := min (a.y + a.height) (b.y + b.height) - y1
  if width ≤ 0 ∨ height ≤ 0 then ⟨0, 0, 0, 0⟩ else ⟨x1, y1, width, height⟩

/-- Dense matrix `cv::Mat_<β>`: its size and its entries (row, column). -/
structure Mat (β : Type) where
  rows : Nat
  cols : Nat
  val : Nat → Nat → β

/-- Entry access `m(r, c)` with `int` indices. -/
def Mat.get {β : Type} (m : Mat β) (r c : Int) : β := m.val r.toNat c.toNat

/-- Entry access `m(pt)` by a point: row `pt.y`, column `pt.x`. -/
def Mat.getPt {β : Type} (m : Mat β) (pt : Point) : β := m.get pt.y pt.x

/-- Assignment `m(r, c) = v` (the program only writes inside the matrix). -/
def Mat.set {β : Type} (m : Mat β) (r c : Nat) (v : β) : Mat β :=
  ⟨m.rows, m.cols, fun i j => if i = r ∧ j = c then v else m.val i j⟩

/-- Matrix of the given size with every entry equal to `v`. -/
def Mat.fill {β : Type} (rows cols : Nat) (v : β) : Mat β := ⟨rows, cols, fun _ _ => v⟩

/-- Single-channel 8-bit image (`CV_8UC1`). -/
abbrev Image := Mat (Fin 256)

/-- Complex number `std::complex<double>`. -/
structure Cplx (α : Type) where
  re : α
  im : α

/-- Value that a 32-bit `int` holds for the exact result `x` of an `int` computation:
`x` reduced modulo `2^32` to the range from `-2^31` to `2^31 - 1` (two's complement
wrap-around). -/
def wrapInt32 (x : Int) : Int := (x + 2147483648) % 4294967296 - 2147483648

/-- Summed-area table `cv::integral(src, sum, CV_32S)`: one row and one column
larger than `src`, entry `(r, c)` is the sum of `src` over rows `< r` and columns `< c`,
accumulated in 32-bit `int` entries. -/
def cv_integral (src : Mat Nat) : Mat Int :=
  ⟨src.rows + 1, src.cols + 1,
    fun r c => wrapInt32 (∑ i in Finset.range r, ∑ j in Finset.range c, (src.val i j : Int))⟩

/-! ## Numeric conversions and constants -/

/-- Conversion of a floating point value to `int`: the fraction is discarded
(truncation toward zero). -/
def truncToInt (x : ℚ) : Int := if 0 ≤ x then ⌊x⌋ else ⌈x⌉

/-- Rounding `cvRound` of OpenCV: to the nearest integer, ties to the even one. -/
def cvRound (x : ℚ) : Int :=
  let f := ⌊x⌋
  let d := x - f
  if d < 1 / 2 then f
  else if 1 / 2 < d then f + 1
  else if f % 2 = 0 then f else f + 1

/-- Power `2^e` of two for an integer exponent. -/
def pow2 (e : Int) : ℚ :=
  if 0 ≤ e then ((2 ^ e.toNat : Nat) : ℚ) else 1 / ((2 ^ (-e).toNat : Nat) : ℚ)

/-- Number of binary digits of `n`, with `fuel` halving steps at most. -/
def bitLengthAux : Nat → Nat → Nat
  | 0, _ => 0
  | fuel + 1, n => if n = 0 then 0 else bitLengthAux fuel (n / 2) + 1

/-- Number of binary digits of `n`. -/
def bitLength (n : Nat) : Nat := bitLengthAux n n

/-- Binary exponent of a positive value `x`: the integer `e` with `2^e <= x < 2^(e+1)`. -/
def binaryExponent (x : ℚ) : Int :=
  let e0 : Int := (bitLength x.num.natAbs : Int) - (bitLength x.den : Int)
  if x < pow2 e0 then e0 - 1 else e0

/-- Rounding of an exact value to the nearest value of a binary floating point format
with `prec` significant bits and smallest normal exponent `emin` (IEEE 754
round-to-nearest, ties to the even significand; values below the normal range are
rounded on the fixed grid of the subnormal numbers).  Overflow to infinity is not
part of the embedding. -/
def roundBinary (prec : Nat) (emin : Int) (x : ℚ) : ℚ :=
  if x = 0 then 0
  else
    let e := max (binaryExponent |x|) emin
    let ulp := pow2 (e - ((prec : Int) - 1))
    (cvRound (x / ulp) : ℚ) * ulp

/-- Rounding to `double` (IEEE 754 binary64): the result of one operation on doubles
whose exact result is `x`, and the value of a decimal literal `x`. -/
def roundToDouble (x : ℚ) : ℚ := roundBinary 53 (-1022) x

/-- Rounding to `float` (IEEE 754 binary32). -/
def roundToFloat (x : ℚ) : ℚ := roundBinary 24 (-126) x

/-- Integer square root by binary search: `b` bits are still to be decided, `r` holds
the bits decided so far. -/
def isqrtBits (n : Nat) : Nat → Nat → Nat
  | 0, r => r
  | b + 1, r =>
    if (r + 2 ^ b) * (r + 2 ^ b) ≤ n then isqrtBits n b (r + 2 ^ b) else isqrtBits n b r

/-- Integer square root: the largest `r` with `r * r <= n`. -/
def isqrt (n : Nat) : Nat := isqrtBits n (bitLength n / 2 + 1) 0

/-- Function `std::sqrt` on a `double` that is not negative: the square root rounded to
the nearest double.  The root is located between two neighbours `s / 2^k` and
`(s + 1) / 2^k` that are closer together than any two doubles or rounding boundaries
near it, so rounding the midpoint (or `s / 2^k` when the root is exactly that) gives
the rounded root. -/
def sqrtDouble (x : ℚ) : ℚ :=
  if x ≤ 0 then 0
  else
    let k : Nat := 56 + bitLength x.den
    let scaled : ℚ := x * ((4 ^ k : Nat) : ℚ)
    let s : Nat := isqrt ⌊scaled⌋₊
    if ((s * s : Nat) : ℚ) = scaled then roundToDouble ((s : ℚ) / ((2 ^ k : Nat) : ℚ))
    else roundToDouble (((s : ℚ) + 1 / 2) / ((2 ^ k : Nat) : ℚ))

/-- Value of `std::numeric_limits<float>::epsilon()`, `2^-23`. -/
def FLT_EPSILON {α : Type} [LinearOrderedField α] : α := 1 / 2 ^ 23

/-- Value of `DBL_EPSILON`, `2^-52`. -/
def DBL_EPSILON {α : Type} [LinearOrderedField α] : α := 1 / 2 ^ 52

/-- New content of a `std::vector` after `resize(n, v)`. -/
def vectorResize {β : Type} (l : List β) (n : Nat) (v : β) : List β :=
  l.take n ++ List.replicate (n - l.length) v

/-- C style loop `for (int i = start; i < stop; i += step) body`, run with `fuel`
iterations at most; a loop that has iterations left when the fuel is used up
is reported as `Failure.diverges`. -/
def forLoop {σ : Type} (body : Int → σ → Except Failure σ) (stop step : Int) :
    Nat → Int → σ → Except Failure σ
  | 0, i, s => if i < stop then .error .diverges else .ok s
  | fuel + 1, i, s =>
    if i < stop then
      match body i s with
      | .ok s' => forLoop body stop step fuel (i + step) s'
      | .error e => .error e
    else .ok s

/-! ## The generator -/

/-- Size `cv::Size`. -/
structure Size where
  width : Int
  height : Int
  deriving DecidableEq

/-- State of a `galif_generator`: the configuration values read by the constructor,
the filter size and the filter bank. -/
structure galif_generator (α : Type) where
  _width : Nat
  _numOrients : Nat
  _peakFrequency : ℚ
  _line_width : ℚ
  _lambda : ℚ
  _featureSize : ℚ
  _tiles : Nat
  _smoothHist : Bool
  _normalizeHist : String
  _samplerName : String
  _filterSize : Size
  _gaborFilter : List (Mat (Cplx α))

section extract

variable {α : Type} [LinearOrderedField α]

/-- Body of `galif_generator::assertImageSize`: no side of the image is larger than
the filters. -/
def galif_generator.assertImageSize (g : galif_generator α) (image : Image) :
    Except Failure Unit :=
  if (image.cols : Int) ≤ g._filterSize.height ∧ (image.rows : Int) ≤ g._filterSize.width then
    .ok ()
  else .error (.assertion "image.size().width <= _filterSize.height && image.size().height <= _filterSize.width")

/-- Lines 282-283 of `extract`: the body of the copy loops, writing pixel `(r, c)` of
the image into `src` (first component) and `inverted` (second component). -/
def writePixel (image : Image) (r : Nat) (canvas : Mat (Cplx α) × Mat Nat) (c : Nat) :
    Mat (Cplx α) × Mat Nat :=
  (canvas.1.set r c ⟨((image.val r c).val : α) * (1 / 255), 0⟩,
   canvas.2.set r c (255 - (image.val r c).val))

/-- Line 278 of `extract`: the inner copy loop over the columns of row `r`. -/
def writeRow (image : Image) (canvas : Mat (Cplx α) × Mat Nat) (r : Nat) :
    Mat (Cplx α) × Mat Nat :=
  (List.range image.cols).foldl (writePixel image r) canvas

/-- Lines 275-284 of `extract`: the white canvas `src` and the zero canvas `inverted`,
both of the filter size, after the image was written into their top-left corner. -/
def paddedCanvas (filterSize : Size) (image : Image) : Mat (Cplx α) × Mat Nat :=
  let src : Mat (Cplx α) := Mat.fill filterSize.height.toNat filterSize.width.toNat ⟨1, 0⟩
  let inverted : Mat Nat := Mat.fill filterSize.height.toNat filterSize.width.toNat 0
  (List.range image.rows).foldl (writeRow image) (src, inverted)

/-- Lines 329-337 of `extract`: the side of the local region in pixels and the tile
size.  The product `area * _featureSize` and its square root are doubles, the
conversion to `int` discards the fraction; the product must not be negative and
`_tiles` must not be zero for the C++ expressions to have a value. -/
def galif_generator.featureSize (g : galif_generator α) (image : Image) :
    Except Failure (Nat × Nat) :=
  let area : Nat := image.cols * image.rows
  let product : ℚ := roundToDouble ((area : ℚ) * g._featureSize)
  if product < 0 then .error (.undefined "conversion of the square root of a negative value to int")
  else if g._tiles = 0 then .error (.undefined "featureSize % _tiles with _tiles == 0")
  else
    let featureSize : Nat := (truncToInt (sqrtDouble product)).toNat
    let featureSize : Nat :=
      if featureSize % g._tiles ≠ 0 then featureSize + (g._tiles - featureSize % g._tiles)
      else featureSize
    let tileSize : Nat := featureSize / g._tiles
    .ok (featureSize, tileSize)

/-- Line 384 of `extract`: the region `rect` of a keypoint.  The coordinates of the
keypoint are `float` values, `featureSize/2` is an integer quotient converted to
`float`, the difference is a `float` and its conversion to `int` discards the fraction. -/
def keypointRect (featureSize : Nat) (keypoint : ℚ × ℚ) : Rect :=
  ⟨truncToInt (roundToFloat (roundToFloat keypoint.1
      - roundToFloat ((featureSize / 2 : Nat) : ℚ))),
   truncToInt (roundToFloat (roundToFloat keypoint.2
      - roundToFloat ((featureSize / 2 : Nat) : ℚ))), featureSize, featureSize⟩

/-- Lines 393-396 of `extract`: `patchsum` for the intersection rectangle `isec`, an
`int` expression evaluated from left to right. -/
def patchsum (integral : Mat Int) (isec : Rect) : Int :=
  wrapInt32 (wrapInt32 (wrapInt32 (integral.getPt isec.tl + integral.getPt isec.br)
    - integral.get isec.y (isec.x + isec.width))
    - integral.get (isec.y + isec.height) isec.x)

/-- Lines 416-434 of `extract`: the body of the sampling loops for response map `k`
at the point `(x, y)`. -/
def sampleAt (tiles numOrients tileSize : Nat) (rect : Rect) (k : Nat) (response : Mat α)
    (y x : Int) (hist : List α) : Except Failure (List α) :=
  if y < 0 ∨ x < 0 ∨ y ≥ response.rows ∨ x ≥ response.cols then .ok hist
  else
    let ry := y - rect.y
    let rx := x - rect.x
    let tx := Int.tdiv rx tileSize
    let ty := Int.tdiv ry tileSize
    if ¬ (tx ≥ 0 ∧ ty ≥ 0) then .error (.assertion "tx >= 0 && ty >= 0")
    else if ¬ (tx.toNat < tiles ∧ ty.toNat < tiles) then
      .error (.assertion "static_cast<uint>(tx) < _tiles && static_cast<uint>(ty) < _tiles")
    else .ok (hist.set ((ty.toNat * tiles + tx.toNat) * numOrients + k) (response.get y x))

/-- Lines 413-435 of `extract`: the two sampling loops over one response map.  The sum
`rect.y + halfTileSize` is taken without rounding; for tile sizes and coordinates of
absolute value below `2^22` this is the value `sampleStart` of the `float` sum
(`sampleStart_exact`). -/
def sampleMap (tiles numOrients tileSize : Nat) (rect : Rect) (k : Nat) (response : Mat α)
    (hist : List α) : Except Failure (List α) :=
  let halfTileSize : ℚ := (tileSize : ℚ) / 2
  let y0 := truncToInt ((rect.y : ℚ) + halfTileSize)
  let x0 := truncToInt ((rect.x : ℚ) + halfTileSize)
  forLoop
    (fun y hist =>
      forLoop (fun x hist => sampleAt tiles numOrients tileSize rect k response y x hist)
        rect.br.x tileSize (rect.br.x - x0).toNat x0 hist)
    rect.br.y tileSize (rect.br.y - y0).toNat y0 hist

/-- Lines 411-436 of `extract`: the loop over the response maps, starting at index `k`. -/
def sampleResponses (tiles numOrients tileSize : Nat) (rect : Rect) :
    Nat → List (Mat α) → List α → Except Failure (List α)
  | _, [], hist => .ok hist
  | k, response :: rest, hist =>
    match sampleMap tiles numOrients tileSize rect k response hist with
    | .ok hist' => sampleResponses tiles numOrients tileSize rect (k + 1) rest hist'
    | .error e => .error e

/-- L1 norm `cv::norm(v, NORM_L1)`. -/
def cv_norm_L1 (v : List α) : α := (v.map fun x => |x|).sum

/-- Result of `cv::normalize(src, dst, 1, 0, cv::NORM_L1)`: `src` times `1 / norm`,
or times `0` when the norm is not above `DBL_EPSILON`. -/
def cv_normalize_L1 (src : List α) : List α :=
  let norm := cv_norm_L1 src
  let scale : α := if norm > DBL_EPSILON then 1 / norm else 0
  src.map fun x => x * scale

/-- Element-wise minimum `cv::min(v, s)` with a scalar. -/
def cv_min (v : List α) (s : α) : List α := v.map fun x => min x s

/-- Lines 440-461 of `extract`: normalization of a sampled histogram.  In the `lowe`
branch the clipped vector `tmp` is computed and the second `cv::normalize` reads
`histwrap`, the unclipped histogram. -/
def normalizeHistogram (sqrt : α → α) (normalizeHist : String) (histogram : List α) :
    Except Failure (List α) :=
  if normalizeHist = "l2" then
    let sum : α := histogram.foldl (fun sum x => sum + x * x) 0
    let sum : α := sqrt sum + FLT_EPSILON
    .ok (histogram.map fun x => x / sum)
  else if normalizeHist = "lowe" then
    let histwrap := histogram
    let tmp := cv_normalize_L1 histwrap
    let _tmp := cv_min tmp (2 / 10)
    let histwrap := cv_normalize_L1 histwrap
    .ok histwrap
  else if normalizeHist = "none" then .ok histogram
  else .error (.runtime_error ("unsupported histogram normalization method passed (" ++
    normalizeHist ++ ")." ++ "Allowed methods are : lowe, l2, none."))

/-- Lines 378-464 of `extract`: the loop body for keypoint number `i`, acting on the
output vectors `features` and `emptyFeatures`. -/
def galif_generator.extractKeypoint (sqrt : α → α) (g : galif_generator α)
    (srcSize : Size) (integral : Mat Int) (responses : List (Mat α))
    (featureSize tileSize : Nat) (i : Nat) (keypoint : ℚ × ℚ)
    (out : List (List α) × List Nat) : Except Failure (List (List α) × List Nat) :=
  let histogram : List α := List.replicate (g._tiles * g._tiles * g._numOrients) 0
  let rect := keypointRect featureSize keypoint
  let isec := rect.inter ⟨0, 0, srcSize.width, srcSize.height⟩
  let rect : Rect := ⟨rect.x + tileSize, rect.y + tileSize, rect.width, rect.height⟩
  if patchsum integral isec = 0 then
    .ok (out.1 ++ [histogram], out.2.set i 1)
  else
    let hist : List α := List.replicate (g._tiles * g._tiles * g._numOrients) 0
    match sampleResponses g._tiles g._numOrients tileSize rect 0 responses hist with
    | .error e => .error e
    | .ok hist =>
      let histogram := hist
      match normalizeHistogram sqrt g._normalizeHist histogram with
      | .error e => .error e
      | .ok histogram => .ok (out.1 ++ [histogram], out.2)

/-- Lines 376-465 of `extract`: the loop over the keypoints, from index `i` on. -/
def galif_generator.extractLoop (sqrt : α → α) (g : galif_generator α)
    (srcSize : Size) (integral : Mat Int) (responses : List (Mat α))
    (featureSize tileSize : Nat) :
    Nat → List (ℚ × ℚ) → List (List α) × List Nat → Except Failure (List (List α) × List Nat)
  | _, [], out => .ok out
  | i, keypoint :: rest, out =>
    match g.extractKeypoint sqrt srcSize integral responses featureSize tileSize i keypoint out with
    | .ok out' => g.extractLoop sqrt srcSize integral responses featureSize tileSize (i + 1) rest out'
    | .error e => .error e

/-- Method `galif_generator::extract(image, keypoints, features, emptyFeatures)`.
`sqrt` is `std::sqrt`; `smoothed k y x` is entry `(y, x)` of response map `k` after
framing and smoothing (lines 293-367, not embedded).  The result is the content of
the output vectors `features` and `emptyFeatures` at return. -/
def galif_generator.extract (sqrt : α → α) (g : galif_generator α)
    (smoothed : Nat → Nat → Nat → α) (image : Image) (keypoints : List (ℚ × ℚ))
    (features : List (List α)) (emptyFeatures : List Nat) :
    Except Failure (List (List α) × List Nat) :=
  match g.assertImageSize image with
  | .error e => .error e
  | .ok _ =>
    let canvas : Mat (Cplx α) × Mat Nat := paddedCanvas g._filterSize image
    let src := canvas.1
    let inverted := canvas.2
    let integral := cv_integral inverted
    if (src.get 0 0).im ≠ 0 then .error (.assertion "src(0,0).imag() == 0")
    else
      match g.featureSize image with
      | .error e => .error e
      | .ok (featureSize, tileSize) =>
        let responses : List (Mat α) := (List.range g._numOrients).map fun k =>
          ⟨image.rows + 2 * tileSize, image.cols + 2 * tileSize, smoothed k⟩
        let emptyFeatures := vectorResize emptyFeatures keypoints.length 0
        g.extractLoop sqrt ⟨src.cols, src.rows⟩ integral responses featureSize tileSize 0
          keypoints (features, emptyFeatures)

end extract

/-! ## Construction -/

/-- Quotient of `n` by the largest power of `p` dividing it (`fuel` division steps at most). -/
def stripFactor (p : Nat) : Nat → Nat → Nat
  | 0, n => n
  | fuel + 1, n => if n % p = 0 ∧ n ≠ 0 then stripFactor p fuel (n / p) else n

/-- Sizes in the table of `cv::getOptimalDFTSize`: products of powers of 2, 3 and 5. -/
def isOptimalDFTSize (n : Nat) : Bool :=
  decide (stripFactor 5 n (stripFactor 3 n (stripFactor 2 n n)) = 1)

/-- First size of the table from `n` on, looking at `fuel` candidates at most. -/
def nextOptimalDFTSize : Nat → Nat → Nat
  | 0, n => n
  | fuel + 1, n => if isOptimalDFTSize n then n else nextOptimalDFTSize fuel (n + 1)

/-- Function `cv::getOptimalDFTSize(size0)`: the smallest table entry not below `size0`,
and `-1` for a negative argument.  (The table of OpenCV ends at 2125764000; arguments
beyond it are outside the range covered here.) -/
def getOptimalDFTSize (size0 : Int) : Int :=
  if size0 < 0 then -1 else (nextOptimalDFTSize (size0.toNat + 1) size0.toNat : Nat)

/-- Allocation `cv::Mat_<β>(size)` of a matrix; OpenCV rejects a negative size. -/
def Mat.create {β : Type} (size : Size) (v : β) : Except Failure (Mat β) :=
  if size.width < 0 ∨ size.height < 0 then .error (.cv_error "negative matrix size")
  else .ok (Mat.fill size.height.toNat size.width.toNat v)

/-- Configuration values read by the constructor, with the defaults of `parse`.  The
numbers are the values written in the configuration; the members of the generator
hold them as `uint` and `double`.  `sampler_setup` is the outcome of the statements
of lines 104 and 108, which create the sampler `sampler_name` and configure it from
the child `generator.sampler` of the configuration: both belong to code outside
`galif.cpp` and can throw. -/
structure Params where
  image_width : Nat := 256
  num_orients : Nat := 4
  peak_frequency : ℚ := 1 / 10
  line_width : ℚ := 2 / 100
  lambda : ℚ := 3 / 10
  feature_size : ℚ := 1 / 10
  tiles : Nat := 4
  smooth_hist : Bool := true
  normalize_hist : String := "l2"
  sampler_name : String := "grid"
  sampler_setup : Except Failure Unit := .ok ()

section construct

variable {α : Type} [LinearOrderedField α]

/-- Function `generate_gabor_filter(image, peakFreq, theta, sigma_x, sigma_y)`; the
result is the content of `image` at return.  `exp`, `cos`, `sin` are the functions of
the C++ math library and `M_PI` its constant. -/
def generate_gabor_filter (exp cos sin : α → α) (M_PI : α) (image : Mat (Cplx α))
    (peakFreq theta sigma_x sigma_y : α) : Mat (Cplx α) :=
  let w := image.cols
  let h := image.rows
  let step_u : α := 1 / (w : α)
  let step_v : α := 1 / (h : α)
  let cos_theta := cos theta
  let sin_theta := sin theta
  let sigmaXSquared := sigma_x * sigma_x
  let sigmaYSquared := sigma_y * sigma_y
  let image : Mat (Cplx α) := ⟨image.rows, image.cols, fun _ _ => ⟨0, 0⟩⟩
  ([-1, 0, 1] : List Int).foldl
    (fun image ny =>
      ([-1, 0, 1] : List Int).foldl
        (fun image nx =>
          ((List.range h).foldl
            (fun (rowState : Mat (Cplx α) × α) y =>
              let v := rowState.2
              let afterRow := (List.range w).foldl
                (fun (colState : Mat (Cplx α) × α) x =>
                  let u := colState.2
                  let ur := u * cos_theta - v * sin_theta
                  let vr := u * sin_theta + v * cos_theta
                  let tmp := ur - peakFreq
                  let value := exp (-2 * M_PI * M_PI *
                    (tmp * tmp * sigmaXSquared + vr * vr * sigmaYSquared))
                  let old := colState.1.val y x
                  (colState.1.set y x ⟨old.re + value, old.im⟩, u + step_u))
                (rowState.1, (nx : α))
              (afterRow.1, v + step_v))
            (image, (ny : α))).1)
        image)
    image

/-- Lines 134-152 of the constructor: the loop that builds the filter bank, for the
orientation indices in `orients`. -/
def buildFilterBank (exp cos sin : α → α) (M_PI : α) (filterSize : Size) (numOrients : Nat)
    (peakFrequency sigma_x sigma_y : α) :
    List Nat → List (Mat (Cplx α)) → Except Failure (List (Mat (Cplx α)))
  | [], gaborFilter => .ok gaborFilter
  | i :: rest, gaborFilter =>
    match Mat.create filterSize (⟨0, 0⟩ : Cplx α) with
    | .error e => .error e
    | .ok filter =>
      let theta : α := (i : α) * M_PI / (numOrients : α)
      let filter := generate_gabor_filter exp cos sin M_PI filter peakFrequency theta sigma_x sigma_y
      let filter := filter.set 0 0 ⟨0, 0⟩
      buildFilterBank exp cos sin M_PI filterSize numOrients peakFrequency sigma_x sigma_y
        rest (gaborFilter ++ [filter])

/-- Constructor `galif_generator::galif_generator(params)`.  A configured count that
does not fit the member type `uint` has no defined outcome; the sampler statements
end as `sampler_setup` says; `sigma_x`, `sigma_y` and the argument of
`getOptimalDFTSize` are doubles, each operation rounded, and the conversion of the
argument to `int` discards the fraction.  The console output is outside the embedding. -/
def galif_generator.create (exp cos sin : α → α) (M_PI : α) (params : Params) :
    Except Failure (galif_generator α) :=
  if 2 ^ 32 ≤ params.image_width ∨ 2 ^ 32 ≤ params.num_orients ∨ 2 ^ 32 ≤ params.tiles then
    .error (.undefined "configured value outside the range of uint")
  else
    match params.sampler_setup with
    | .error e => .error e
    | .ok _ =>
      let _peakFrequency : ℚ := roundToDouble params.peak_frequency
      let _line_width : ℚ := roundToDouble params.line_width
      let _lambda : ℚ := roundToDouble params.lambda
      let _featureSize : ℚ := roundToDouble params.feature_size
      let sigma_x : ℚ := roundToDouble (_line_width * params.image_width)
      let sigma_y : ℚ := roundToDouble (_lambda * sigma_x)
      let paddedSize : Int :=
        getOptimalDFTSize (truncToInt (roundToDouble ((params.image_width : ℚ)
          + roundToDouble (3 * max sigma_x sigma_y))))
      let filterSize : Size := ⟨paddedSize, paddedSize⟩
      match buildFilterBank exp cos sin M_PI filterSize params.num_orients
          (_peakFrequency : α) (sigma_x : α) (sigma_y : α)
          (List.range params.num_orients) [] with
      | .error e => .error e
      | .ok gaborFilter =>
        .ok ⟨params.image_width, params.num_orients, _peakFrequency, _line_width,
          _lambda, _featureSize, params.tiles, params.smooth_hist,
          params.normalize_hist, params.sampler_name, filterSize, gaborFilter⟩

end construct

/-! ## Scaling and `compute` -/

/-- Function `cv::resize(src, dst, Size(0, 0), fx, fy, INTER_AREA)`: the size of the
result is the rounded scaled size of `src`; its pixels come from the interpolation
`resample src rows cols` of OpenCV.  An empty source, a scale factor that is not
positive or an empty result is an error of OpenCV. -/
def cv_resize (resample : Image → Nat → Nat → Nat → Nat → Fin 256) (src : Image)
    (fx fy : ℚ) : Except Failure Image :=
  if src.rows = 0 ∨ src.cols = 0 then .error (.cv_error "empty source image")
  else if ¬ (fx > 0 ∧ fy > 0) then .error (.cv_error "scale factor not positive")
  else
    let width := cvRound ((src.cols : ℚ) * fx)
    let height := cvRound ((src.rows : ℚ) * fy)
    if width ≤ 0 ∨ height ≤ 0 then .error (.cv_error "empty destination size")
    else .ok ⟨height.toNat, width.toNat, resample src height.toNat width.toNat⟩

section compute

variable {α : Type} [LinearOrderedField α]

/-- Method `galif_generator::scale(image, scaled)`: the scaled image and the returned
scaling factor. -/
def galif_generator.scale (g : galif_generator α)
    (resample : Image → Nat → Nat → Nat → Nat → Fin 256) (image : Image) :
    Except Failure (Image × ℚ) :=
  let scaling_factor : ℚ :=
    if image.cols > image.rows then (g._width : ℚ) / (image.cols : ℚ)
    else (g._width : ℚ) / (image.rows : ℚ)
  match cv_resize resample image scaling_factor scaling_factor with
  | .error e => .error e
  | .ok scaled => .ok (scaled, scaling_factor)

end compute

/-! ## Reference definitions

Quantities the statements below are phrased in: the direct pixel scan of a region and
the values `extract` computes for one keypoint. -/

/-- Direct pixel scan: the sum of `255 - intensity` over the pixels of the image that
lie inside `rect`. -/
def inkMass (image : Image) (rect : Rect) : Int :=
  ∑ r in Finset.range image.rows, ∑ c in Finset.range image.cols,
    if rect.y ≤ (r : Int) ∧ (r : Int) < rect.y + rect.height ∧
        rect.x ≤ (c : Int) ∧ (c : Int) < rect.x + rect.width
    then ((255 - (image.val r c).val : Nat) : Int) else 0

section views

variable {α : Type} [LinearOrderedField α]

/-- Side of the local region computed by `extract` for `image` (0 if it has no value). -/
def galif_generator.featureSizePx (g : galif_generator α) (image : Image) : Nat :=
  match g.featureSize image with
  | .ok (featureSize, _) => featureSize
  | .error _ => 0

/-- Tile size computed by `extract` for `image` (0 if it has no value). -/
def galif_generator.tileSizePx (g : galif_generator α) (image : Image) : Nat :=
  match g.featureSize image with
  | .ok (_, tileSize) => tileSize
  | .error _ => 0

/-- Region `rect` of a keypoint as `extract` defines it in line 384. -/
def galif_generator.supportRect (g : galif_generator α) (image : Image) (keypoint : ℚ × ℚ) :
    Rect :=
  keypointRect (g.featureSizePx image) keypoint

/-- Value of `patchsum` that `extract` computes for a keypoint. -/
def galif_generator.patchsumOf (g : galif_generator α) (image : Image) (keypoint : ℚ × ℚ) :
    Int :=
  let canvas : Mat (Cplx α) × Mat Nat := paddedCanvas g._filterSize image
  patchsum (cv_integral canvas.2)
    ((g.supportRect image keypoint).inter ⟨0, 0, canvas.1.cols, canvas.1.rows⟩)

/-- Response maps as `extract` holds them after line 367. -/
def galif_generator.responsesOf (g : galif_generator α) (smoothed : Nat → Nat → Nat → α)
    (image : Image) : List (Mat α) :=
  (List.range g._numOrients).map fun k =>
    ⟨image.rows + 2 * g.tileSizePx image, image.cols + 2 * g.tileSizePx image, smoothed k⟩

/-- Histogram that the sampling loops of `extract` produce for a keypoint, before
normalization (empty if the loops fail). -/
def galif_generator.sampledHistogram (g : galif_generator α) (smoothed : Nat → Nat → Nat → α)
    (image : Image) (keypoint : ℚ × ℚ) : List α :=
  let rect := g.supportRect image keypoint
  let rect : Rect :=
    ⟨rect.x + g.tileSizePx image, rect.y + g.tileSizePx image, rect.width, rect.height⟩
  match sampleResponses g._tiles g._numOrients (g.tileSizePx image) rect 0
      (g.responsesOf smoothed image)
      (List.replicate (g._tiles * g._tiles * g._numOrients) 0) with
  | .ok hist => hist
  | .error _ => []

/-- Outcome of the loop body of `extract` for one keypoint: the zero histogram for an
empty patch, else the normalized sampled histogram or the failure of normalization. -/
def galif_generator.describe (sqrt : α → α) (g : galif_generator α)
    (smoothed : Nat → Nat → Nat → α) (image : Image) (keypoint : ℚ × ℚ) :
    Except Failure (List α) :=
  if g.patchsumOf image keypoint = 0 then
    .ok (List.replicate (g._tiles * g._tiles * g._numOrients) 0)
  else normalizeHistogram sqrt g._normalizeHist (g.sampledHistogram smoothed image keypoint)

/-- Outcome of one loop iteration followed by the outcomes of the later ones: the
first failure, or all results. -/
def consOutcome {β : Type} : Except Failure β → Except Failure (List β) → Except Failure (List β)
  | .error e, _ => .error e
  | .ok _, .error e => .error e
  | .ok d, .ok ds => .ok (d :: ds)

/-- Outcomes of the loop body for a list of keypoints, up to the first failure. -/
def galif_generator.describeAll (sqrt : α → α) (g : galif_generator α)
    (smoothed : Nat → Nat → Nat → α) (image : Image) :
    List (ℚ × ℚ) → Except Failure (List (List α))
  | [] => .ok []
  | keypoint :: rest =>
    consOutcome (g.describe sqrt smoothed image keypoint)
      (g.describeAll sqrt smoothed image rest)

/-- Descriptor of a keypoint (empty if normalization fails). -/
def galif_generator.descriptorOf (sqrt : α → α) (g : galif_generator α)
    (smoothed : Nat → Nat → Nat → α) (image : Image) (keypoint : ℚ × ℚ) : List α :=
  match g.describe sqrt smoothed image keypoint with
  | .ok histogram => histogram
  | .error _ => []

/-- Empty flag of a keypoint: 1 when `patchsum` is zero. -/
def galif_generator.emptyFlagOf (g : galif_generator α) (image : Image) (keypoint : ℚ × ℚ) :
    Nat :=
  if g.patchsumOf image keypoint = 0 then 1 else 0

/-- Normalization `lowe` in the words of the specification: L1-normalize, clip every
entry to a maximum of 0.2, L1-normalize again. -/
def loweBySpec (h : List α) : List α :=
  let l1normalize : List α → List α := fun v => v.map fun x => x / (v.map fun y => |y|).sum
  l1normalize ((l1normalize h).map fun x => min x (2 / 10))

/-- Normalization modes accepted by `extract`. -/
def supportedNormalization (normalizeHist : String) : Prop :=
  normalizeHist = "l2" ∨ normalizeHist = "lowe" ∨ normalizeHist = "none"

end views

section constructed

variable {α : Type} [LinearOrderedField α]

/-- Value of `sigma_x` that the constructor computes from the configuration. -/
def sigmaXOf (params : Params) : ℚ :=
  roundToDouble (roundToDouble params.line_width * params.image_width)

/-- Value of `sigma_y` that the constructor computes from the configuration. -/
def sigmaYOf (params : Params) : ℚ :=
  roundToDouble (roundToDouble params.lambda * sigmaXOf params)

/-- Filter size `paddedSize` that the constructor computes from the configuration. -/
def paddedSizeOf (params : Params) : Int :=
  getOptimalDFTSize (truncToInt (roundToDouble ((params.image_width : ℚ)
    + roundToDouble (3 * max (sigmaXOf params) (sigmaYOf params)))))

/-- Filter that the constructor stores for orientation index `i`. -/
def orientedFilter (exp cos sin : α → α) (M_PI : α) (params : Params) (i : Nat) :
    Mat (Cplx α) :=
  (generate_gabor_filter exp cos sin M_PI
      (Mat.fill (paddedSizeOf params).toNat (paddedSizeOf params).toNat ⟨0, 0⟩)
      ((roundToDouble params.peak_frequency : ℚ) : α)
      ((i : α) * M_PI / (params.num_orients : α))
      ((sigmaXOf params : ℚ) : α)
      ((sigmaYOf params : ℚ) : α)).set 0 0 ⟨0, 0⟩

/-- Generator state at the end of a constructor call that allocated all filters. -/
def galif_generator.ofParams (exp cos sin : α → α) (M_PI : α) (params : Params) :
    galif_generator α :=
  ⟨params.image_width, params.num_orients, roundToDouble params.peak_frequency,
    roundToDouble params.line_width, roundToDouble params.lambda,
    roundToDouble params.feature_size, params.tiles, params.smooth_hist,
    params.normalize_hist, params.sampler_name, ⟨paddedSizeOf params, paddedSizeOf params⟩,
    (List.range params.num_orients).map (orientedFilter exp cos sin M_PI params)⟩

end constructed

/-- Matrix with `f` applied to every entry. -/
def Mat.map {β γ : Type} (f : β → γ) (m : Mat β) : Mat γ :=
  ⟨m.rows, m.cols, fun r c => f (m.val r c)⟩

/-- Result with `f` applied to the value of a call that returned. -/
def mapOutcome {β γ : Type} (f : β → γ) : Except Failure β → Except Failure γ
  | .ok b => .ok (f b)
  | .error e => .error e

/-- Euclidean norm of a vector, with the square root function `sqrt`. -/
def euclideanNorm {α : Type} [LinearOrderedField α] (sqrt : α → α) (v : List α) : α :=
  sqrt ((v.map fun x => x * x).sum)

/-! ## Concrete inputs

Small inputs on which the statements below are evaluated. -/

/-- Image of two rows and two columns: one black pixel in the top-left corner, the
rest white. -/
def cornerStroke : Image := ⟨2, 2, fun r c => if r = 0 ∧ c = 0 then 0 else 255⟩

/-- White image of 256 rows and 256 columns. -/
def whiteCanvas : Image := ⟨256, 256, fun _ _ => 255⟩

/-- White input image of 480 rows and 640 columns. -/
def whiteInput : Image := ⟨480, 640, fun _ _ => 255⟩

/-- Stand-in for the interpolation of `cv::resize`: every pixel of the result is the
top-left pixel of the source. -/
def constantResample : Image → Nat → Nat → Nat → Nat → Fin 256 :=
  fun src _ _ _ _ => src.val 0 0

/-- Configuration with one tile, two orientations, a region as large as the image and
normalization `lowe`, for images of side 2. -/
def loweParams : Params :=
  { image_width := 2, num_orients := 2, feature_size := 1, tiles := 1,
    normalize_hist := "lowe" }

/-- Response maps with value 3 in map 0 and value 1 in every other map. -/
def twoBinResponses : Nat → Nat → Nat → ℚ :=
  fun k _ _ => if k = 0 then 3 else 1

/-- Configuration with one tile, six orientations, a region as large as the image and
normalization `lowe`, for images of side 2. -/
def sixBinParams : Params :=
  { image_width := 2, num_orients := 6, feature_size := 1, tiles := 1,
    normalize_hist := "lowe" }

/-- Response maps with value 1 in map 0 and value 0 in every other map. -/
def oneBinResponses : Nat → Nat → Nat → ℚ :=
  fun k _ _ => if k = 0 then 1 else 0

/-- Configuration with one tile, one orientation, a region as large as the image and
the default normalization `l2`, for images of side 2. -/
def oneBinParams : Params :=
  { image_width := 2, num_orients := 1, feature_size := 1, tiles := 1 }

/-- Response maps with value 1/2 everywhere. -/
def halfResponses : Nat → Nat → Nat → ℚ :=
  fun _ _ _ => 1 / 2

/-- Default configuration with the normalization name `l1`, which is not supported. -/
def typoParams : Params := { normalize_hist := "l1" }

/-- Transform-efficient sizes in the words of the specification: products of powers of
2, 3 and 5. -/
def transformEfficient (n : Nat) : Prop := ∃ a b c : Nat, n = 2 ^ a * 3 ^ b * 5 ^ c

/-- Default configuration with `image_width = 85`. -/
def narrowParams : Params := { image_width := 85 }

/-- The histogram update `T` writes `E i` to every entry `i` with `A i` and keeps the
other entries and the length. -/
def WritesEntries {α : Type} (E : Nat → α) (A : Nat → Prop) (T : List α → List α) : Prop :=
  ∀ h : List α, (T h).length = h.length ∧
    (∀ i, A i → i < h.length → (T h)[i]? = some (E i)) ∧
    (∀ i, ¬ A i → (T h)[i]? = h[i]?)

/-- Black image of 4096 rows and 4096 columns. -/
def blackImage : Image := ⟨4096, 4096, fun _ _ => 0⟩

/-- Default configuration with `feature_size = 0.29` and one tile. -/
def coarseParams : Params := { feature_size := 29 / 100, tiles := 1 }

/-- White image of 50 rows and 58 columns, of area 2900. -/
def whiteStrip : Image := ⟨50, 58, fun _ _ => 255⟩

/-- Default configuration with `image_width = 100` and `line_width = 2.07`. -/
def wideLineParams : Params := { image_width := 100, line_width := 207 / 100 }

/-! ## Facts about the embedding

### 32-bit integers -/

theorem wrapInt32_of_range (x : Int) (h1 : -2147483648 ≤ x) (h2 : x < 2147483648) :
    wrapInt32 x = x := by
  unfold wrapInt32
  omega

theorem wrapInt32_zero : wrapInt32 0 = 0 := by
  unfold wrapInt32
  omega

theorem wrapInt32_patchsum (a b c d : Int) :
    wrapInt32 (wrapInt32 (wrapInt32 (wrapInt32 a + wrapInt32 b) - wrapInt32 c) - wrapInt32 d)
      = wrapInt32 (a + b - c - d) := by
  unfold wrapInt32
  omega

theorem wrapInt32_eq_zero_iff (x : Int) : wrapInt32 x = 0 ↔ (4294967296 : Int) ∣ x := by
  unfold wrapInt32
  omega

/-! ### Rounding to floating point values -/

theorem pow2_eq_zpow (e : Int) : pow2 e = (2 : ℚ) ^ e := by
  unfold pow2
  split_ifs with h
  · obtain ⟨n, rfl⟩ := Int.eq_ofNat_of_zero_le h
    simp
  · obtain ⟨n, hn⟩ := Int.exists_eq_neg_ofNat (by omega : e ≤ 0)
    subst hn
    simp

theorem pow2_pos (e : Int) : 0 < pow2 e := by
  rw [pow2_eq_zpow]
  positivity

theorem pow2_add (a b : Int) : pow2 (a + b) = pow2 a * pow2 b := by
  simp only [pow2_eq_zpow]
  exact zpow_add₀ (by norm_num) a b

theorem pow2_natCast (n : Nat) : pow2 (n : Int) = ((2 ^ n : Nat) : ℚ) := by
  rw [pow2_eq_zpow]
  simp

theorem pow2_le_pow2 {a b : Int} (h : a ≤ b) : pow2 a ≤ pow2 b := by
  simp only [pow2_eq_zpow]
  exact zpow_le_zpow_right₀ (by norm_num) h

theorem bitLengthAux_zero (fuel : Nat) : bitLengthAux fuel 0 = 0 := by
  cases fuel <;> simp [bitLengthAux]

theorem bitLengthAux_spec : ∀ fuel n : Nat, n ≤ fuel →
    n < 2 ^ bitLengthAux fuel n ∧ (n ≠ 0 → 2 ^ (bitLengthAux fuel n - 1) ≤ n) := by
  intro fuel
  induction fuel with
  | zero =>
    intro n hn
    have : n = 0 := by omega
    subst this
    simp [bitLengthAux]
  | succ k ih =>
    intro n hn
    by_cases h0 : n = 0
    · subst h0
      simp [bitLengthAux]
    · have hstep : bitLengthAux (k + 1) n = bitLengthAux k (n / 2) + 1 := by
        simp [bitLengthAux, h0]
      rw [hstep]
      obtain ⟨h1, h2⟩ := ih (n / 2) (by omega)
      constructor
      · rw [pow_succ]; omega
      · intro _
        simp only [Nat.add_sub_cancel]
        by_cases hh : n / 2 = 0
        · rw [hh, bitLengthAux_zero]
          simp
          omega
        · have h3 := h2 hh
          have h4 : 1 ≤ bitLengthAux k (n / 2) := by
            by_contra hc
            have : bitLengthAux k (n / 2) = 0 := by omega
            rw [this] at h1
            simp at h1
            exact hh h1
          have e : bitLengthAux k (n / 2) = (bitLengthAux k (n / 2) - 1) + 1 := by omega
          rw [e, pow_succ]
          omega

theorem bitLength_spec (n : Nat) (hn : n ≠ 0) :
    2 ^ (bitLength n - 1) ≤ n ∧ n < 2 ^ bitLength n ∧ 1 ≤ bitLength n := by
  obtain ⟨h1, h2⟩ := bitLengthAux_spec n n le_rfl
  refine ⟨h2 hn, h1, ?_⟩
  by_contra hc
  have : bitLength n = 0 := by omega
  unfold bitLength at this
  rw [this] at h1
  simp at h1
  exact hn h1

theorem quotient_between_pow2 (p q a b : Nat) (hp : 0 < p) (hq : 0 < q)
    (a1 : 2 ^ (a - 1) ≤ p) (a2 : p < 2 ^ a) (a3 : 1 ≤ a)
    (b1 : 2 ^ (b - 1) ≤ q) (b2 : q < 2 ^ b) (b3 : 1 ≤ b) :
    pow2 ((a : Int) - (b : Int) - 1) < (p : ℚ) / (q : ℚ) ∧
    (p : ℚ) / (q : ℚ) < pow2 ((a : Int) - (b : Int) + 1) := by
  have hq' : (0 : ℚ) < (q : ℚ) := by exact_mod_cast hq
  have hp' : (0 : ℚ) < (p : ℚ) := by exact_mod_cast hp
  have hA1 : ((2 ^ (a - 1) : Nat) : ℚ) ≤ (p : ℚ) := by exact_mod_cast a1
  have hA2 : (p : ℚ) < ((2 ^ a : Nat) : ℚ) := by exact_mod_cast a2
  have hB1 : ((2 ^ (b - 1) : Nat) : ℚ) ≤ (q : ℚ) := by exact_mod_cast b1
  have hB2 : (q : ℚ) < ((2 ^ b : Nat) : ℚ) := by exact_mod_cast b2
  have hpa : (0 : ℚ) < ((2 ^ (a - 1) : Nat) : ℚ) := by positivity
  have hpb : (0 : ℚ) < ((2 ^ (b - 1) : Nat) : ℚ) := by positivity
  have hpb' : (0 : ℚ) < ((2 ^ b : Nat) : ℚ) := by positivity
  constructor
  · have e : ((a : Int) - (b : Int) - 1) = ((a - 1 : Nat) : Int) + (-((b : Nat) : Int)) := by
      omega
    rw [e, pow2_add, pow2_natCast, pow2_eq_zpow, zpow_neg, ← pow2_eq_zpow, pow2_natCast,
      ← div_eq_mul_inv, div_lt_div_iff hpb' hq']
    calc ((2 ^ (a - 1) : Nat) : ℚ) * (q : ℚ) ≤ (p : ℚ) * (q : ℚ) :=
          mul_le_mul_of_nonneg_right hA1 hq'.le
      _ < (p : ℚ) * ((2 ^ b : Nat) : ℚ) := mul_lt_mul_of_pos_left hB2 hp'
  · have e : ((a : Int) - (b : Int) + 1) = ((a : Nat) : Int) + (-((b - 1 : Nat) : Int)) := by
      omega
    rw [e, pow2_add, pow2_natCast, pow2_eq_zpow, zpow_neg, ← pow2_eq_zpow, pow2_natCast,
      ← div_eq_mul_inv, div_lt_div_iff hq' hpb]
    calc (p : ℚ) * ((2 ^ (b - 1) : Nat) : ℚ) ≤ (p : ℚ) * (q : ℚ) :=
          mul_le_mul_of_nonneg_left hB1 hp'.le
      _ < ((2 ^ a : Nat) : ℚ) * (q : ℚ) := mul_lt_mul_of_pos_right hA2 hq'

/-- The exponent of a positive value: `2^e <= x < 2^(e+1)`. -/
theorem binaryExponent_spec (x : ℚ) (hx : 0 < x) :
    pow2 (binaryExponent x) ≤ x ∧ x < pow2 (binaryExponent x + 1) := by
  have hnum : 0 < x.num := Rat.num_pos.mpr hx
  have hp0 : x.num.natAbs ≠ 0 := by omega
  have hq0 : x.den ≠ 0 := x.den_nz
  obtain ⟨a1, a2, a3⟩ := bitLength_spec x.num.natAbs hp0
  obtain ⟨b1, b2, b3⟩ := bitLength_spec x.den hq0
  have hxeq : (x.num.natAbs : ℚ) / (x.den : ℚ) = x := by
    have hn : ((x.num.natAbs : Int) : ℚ) = (x.num : ℚ) := by
      rw [Int.natAbs_of_nonneg hnum.le]
    rw [Int.cast_natCast] at hn
    rw [hn]
    exact Rat.num_div_den x
  obtain ⟨hlow, hhigh⟩ := quotient_between_pow2 x.num.natAbs x.den _ _
    (Nat.pos_of_ne_zero hp0) (Nat.pos_of_ne_zero hq0) a1 a2 a3 b1 b2 b3
  rw [hxeq] at hlow hhigh
  unfold binaryExponent
  simp only
  split_ifs with hlt
  · refine ⟨hlow.le, ?_⟩
    rw [show (bitLength x.num.natAbs : Int) - (bitLength x.den : Int) - 1 + 1
      = (bitLength x.num.natAbs : Int) - (bitLength x.den : Int) by ring]
    exact hlt
  · exact ⟨not_lt.mp hlt, hhigh⟩


theorem cvRound_intCast (n : Int) : cvRound (n : ℚ) = n := by
  unfold cvRound
  simp

theorem cvRound_le (x : ℚ) (n : Int) (h : x ≤ n) : cvRound x ≤ n := by
  have hf : ⌊x⌋ ≤ n := Int.floor_le_floor h |>.trans (by simp)
  have hfx : (⌊x⌋ : ℚ) ≤ x := Int.floor_le x
  unfold cvRound
  simp only
  split_ifs with h1 h2 h3
  · exact hf
  · have : (⌊x⌋ : ℚ) < n := by linarith
    have : ⌊x⌋ < n := by exact_mod_cast this
    omega
  · exact hf
  · have hd : (1 : ℚ) / 2 ≤ x - ⌊x⌋ := not_lt.mp h1
    have : (⌊x⌋ : ℚ) < n := by linarith
    have : ⌊x⌋ < n := by exact_mod_cast this
    omega

theorem cvRound_ge (x : ℚ) (n : Int) (h : (n : ℚ) ≤ x) : n ≤ cvRound x := by
  have hf : n ≤ ⌊x⌋ := Int.le_floor.mpr h
  unfold cvRound
  simp only
  split_ifs <;> omega

/-- Rounding to the nearest integer moves a value by one half at most. -/
theorem cvRound_dist (x : ℚ) : |(cvRound x : ℚ) - x| ≤ 1 / 2 := by
  have h1 : (⌊x⌋ : ℚ) ≤ x := Int.floor_le x
  have h2 : x < (⌊x⌋ : ℚ) + 1 := Int.lt_floor_add_one x
  unfold cvRound
  simp only
  rw [abs_le]
  split_ifs with a b c
  · constructor <;> linarith
  · push_cast; constructor <;> linarith
  · constructor <;> linarith
  · push_cast; constructor <;> linarith

/-- Rounding keeps the sign. -/
theorem roundBinary_nonneg (prec : Nat) (emin : Int) (x : ℚ) (hx : 0 ≤ x) :
    0 ≤ roundBinary prec emin x := by
  unfold roundBinary
  split_ifs with h0
  · exact le_rfl
  · simp only
    apply mul_nonneg _ (pow2_pos _).le
    have : (0 : Int) ≤ cvRound (x / pow2 (max (binaryExponent |x|) emin - ((prec : Int) - 1))) :=
      cvRound_ge _ 0 (by
        push_cast
        exact div_nonneg hx (pow2_pos _).le)
    exact_mod_cast this

/-- A natural number of at most `prec` bits is a value of the format, and rounding is
monotone: a value that is not below it is not rounded below it. -/
theorem le_roundBinary (prec : Nat) (emin : Int) (hprec : 1 ≤ prec) (hemin : emin ≤ 0)
    (n : Nat) (hn : n ≤ 2 ^ prec) (x : ℚ) (h : (n : ℚ) ≤ x) :
    (n : ℚ) ≤ roundBinary prec emin x := by
  rcases Nat.eq_zero_or_pos n with h0 | hpos
  · subst h0
    simp only [Nat.cast_zero] at h ⊢
    exact roundBinary_nonneg prec emin x h
  have hx : 0 < x := lt_of_lt_of_le (by exact_mod_cast hpos) h
  unfold roundBinary
  rw [if_neg hx.ne']
  simp only
  rw [abs_of_pos hx]
  obtain ⟨hlo, -⟩ := binaryExponent_spec x hx
  generalize binaryExponent x = be at hlo
  by_cases hcase : max be emin ≤ (prec : Int) - 1
  · -- the grid is finer than the integers
    obtain ⟨k, hk⟩ := Int.eq_ofNat_of_zero_le (by omega : 0 ≤ (prec : Int) - 1 - max be emin)
    have hu : pow2 (max be emin - ((prec : Int) - 1)) = 1 / ((2 ^ k : Nat) : ℚ) := by
      rw [show max be emin - ((prec : Int) - 1) = -(k : Int) by omega, pow2_eq_zpow, zpow_neg]
      simp
    rw [hu]
    have hk2 : (0 : ℚ) < ((2 ^ k : Nat) : ℚ) := by positivity
    have hge : ((n * 2 ^ k : Nat) : Int) ≤ cvRound (x / (1 / ((2 ^ k : Nat) : ℚ))) := by
      apply cvRound_ge
      rw [div_div_eq_mul_div, div_one]
      push_cast
      exact mul_le_mul_of_nonneg_right h (by positivity)
    have hge' : (((n * 2 ^ k : Nat) : Int) : ℚ) ≤ (cvRound (x / (1 / ((2 ^ k : Nat) : ℚ))) : ℚ) := by
      exact_mod_cast hge
    calc (n : ℚ) = (((n * 2 ^ k : Nat) : Int) : ℚ) * (1 / ((2 ^ k : Nat) : ℚ)) := by
          push_cast; field_simp
      _ ≤ (cvRound (x / (1 / ((2 ^ k : Nat) : ℚ))) : ℚ) * (1 / ((2 ^ k : Nat) : ℚ)) :=
          mul_le_mul_of_nonneg_right hge' (by positivity)
  · -- the value is at least `2^prec`
    have hmax : max be emin = be := by
      apply max_eq_left
      omega
    rw [hmax] at hcase ⊢
    have hu : (0 : ℚ) < pow2 (be - ((prec : Int) - 1)) := pow2_pos _
    have hsplit : pow2 be = pow2 ((prec : Int) - 1) * pow2 (be - ((prec : Int) - 1)) := by
      rw [← pow2_add]; congr 1; ring
    obtain ⟨m, hm⟩ := Int.eq_ofNat_of_zero_le (by omega : 0 ≤ (prec : Int) - 1)
    have hge : ((2 ^ m : Nat) : Int) ≤ cvRound (x / pow2 (be - ((prec : Int) - 1))) := by
      apply cvRound_ge
      rw [le_div_iff₀ hu]
      have : pow2 ((prec : Int) - 1) = (((2 ^ m : Nat) : Int) : ℚ) := by
        rw [hm, pow2_natCast]; simp
      rw [← this, ← hsplit]
      exact hlo
    have hge' : (((2 ^ m : Nat) : Int) : ℚ) ≤ (cvRound (x / pow2 (be - ((prec : Int) - 1))) : ℚ) := by
      exact_mod_cast hge
    have hn' : (n : ℚ) ≤ pow2 be := by
      have h1 : pow2 (prec : Int) ≤ pow2 be := pow2_le_pow2 (by omega)
      rw [pow2_natCast] at h1
      have h2 : (n : ℚ) ≤ ((2 ^ prec : Nat) : ℚ) := by exact_mod_cast hn
      linarith
    calc (n : ℚ) ≤ pow2 be := hn'
      _ = (((2 ^ m : Nat) : Int) : ℚ) * pow2 (be - ((prec : Int) - 1)) := by
          rw [hsplit, hm, pow2_natCast]; simp
      _ ≤ (cvRound (x / pow2 (be - ((prec : Int) - 1))) : ℚ) * pow2 (be - ((prec : Int) - 1)) :=
          mul_le_mul_of_nonneg_right hge' hu.le

@[simp] theorem Mat.set_rows {β : Type} (m : Mat β) (r c : Nat) (v : β) :
    (m.set r c v).rows = m.rows := rfl

@[simp] theorem Mat.set_cols {β : Type} (m : Mat β) (r c : Nat) (v : β) :
    (m.set r c v).cols = m.cols := rfl

theorem Mat.set_val {β : Type} (m : Mat β) (r c : Nat) (v : β) (i j : Nat) :
    (m.set r c v).val i j = if i = r ∧ j = c then v else m.val i j := rfl

theorem ite_row_step {β : Type} (i r j n : Nat) (a : Nat → β) (b : β) :
    (if i = r ∧ j = n then a n else if i = r ∧ j < n then a j else b)
      = if i = r ∧ j < n + 1 then a j else b := by
  by_cases hi : i = r
  · rcases Nat.lt_trichotomy j n with h | h | h
    · simp [hi, h, Nat.lt_succ_of_lt h, Nat.ne_of_lt h]
    · subst h; simp [hi]
    · have h1 : ¬ j < n := by omega
      have h2 : ¬ j < n + 1 := by omega
      have h3 : ¬ j = n := by omega
      simp [h1, h2, h3]
  · simp [hi]

theorem ite_canvas_step {β : Type} (i j n cols : Nat) (a : Nat → Nat → β) (b : β) :
    (if i = n ∧ j < cols then a n j else if i < n ∧ j < cols then a i j else b)
      = if i < n + 1 ∧ j < cols then a i j else b := by
  by_cases hj : j < cols
  · rcases Nat.lt_trichotomy i n with h | h | h
    · simp [hj, h, Nat.lt_succ_of_lt h, Nat.ne_of_lt h]
    · subst h; simp [hj]
    · have h1 : ¬ i < n := by omega
      have h2 : ¬ i < n + 1 := by omega
      have h3 : ¬ i = n := by omega
      simp [h1, h2, h3]
  · simp [hj]

section canvas

variable {α : Type} [LinearOrderedField α]

/-- State of the two canvases after the first `n` pixels of row `r` were written. -/
theorem writePixel_fold (image : Image) (r n : Nat) (cv : Mat (Cplx α) × Mat Nat) :
    ((List.range n).foldl (writePixel image r) cv).1.rows = cv.1.rows ∧
    ((List.range n).foldl (writePixel image r) cv).1.cols = cv.1.cols ∧
    ((List.range n).foldl (writePixel image r) cv).2.rows = cv.2.rows ∧
    ((List.range n).foldl (writePixel image r) cv).2.cols = cv.2.cols ∧
    (∀ i j, ((List.range n).foldl (writePixel image r) cv).1.val i j =
      if i = r ∧ j < n then ⟨((image.val r j).val : α) * (1 / 255), 0⟩ else cv.1.val i j) ∧
    (∀ i j, ((List.range n).foldl (writePixel image r) cv).2.val i j =
      if i = r ∧ j < n then 255 - (image.val r j).val else cv.2.val i j) := by
  induction n with
  | zero => simp
  | succ n ih =>
    simp only [List.range_succ, List.foldl_append, List.foldl_cons, List.foldl_nil]
    obtain ⟨h1, h2, h3, h4, h5, h6⟩ := ih
    refine ⟨h1, h2, h3, h4, ?_, ?_⟩
    · intro i j
      show (Mat.set _ r n _).val i j = _
      rw [Mat.set_val, h5]
      exact ite_row_step i r j n
        (fun j => (⟨((image.val r j).val : α) * (1 / 255), 0⟩ : Cplx α)) _
    · intro i j
      show (Mat.set _ r n _).val i j = _
      rw [Mat.set_val, h6]
      exact ite_row_step i r j n (fun j => 255 - (image.val r j).val) _

/-- State of the two canvases after the first `n` rows of the image were written. -/
theorem writeRow_fold (image : Image) (n : Nat) (cv : Mat (Cplx α) × Mat Nat) :
    ((List.range n).foldl (writeRow image) cv).1.rows = cv.1.rows ∧
    ((List.range n).foldl (writeRow image) cv).1.cols = cv.1.cols ∧
    ((List.range n).foldl (writeRow image) cv).2.rows = cv.2.rows ∧
    ((List.range n).foldl (writeRow image) cv).2.cols = cv.2.cols ∧
    (∀ i j, ((List.range n).foldl (writeRow image) cv).1.val i j =
      if i < n ∧ j < image.cols then ⟨((image.val i j).val : α) * (1 / 255), 0⟩
      else cv.1.val i j) ∧
    (∀ i j, ((List.range n).foldl (writeRow image) cv).2.val i j =
      if i < n ∧ j < image.cols then 255 - (image.val i j).val else cv.2.val i j) := by
  induction n with
  | zero => simp
  | succ n ih =>
    simp only [List.range_succ, List.foldl_append, List.foldl_cons, List.foldl_nil]
    obtain ⟨h1, h2, h3, h4, h5, h6⟩ := ih
    obtain ⟨k1, k2, k3, k4, k5, k6⟩ :=
      writePixel_fold image n image.cols ((List.range n).foldl (writeRow image) cv)
    refine ⟨k1.trans h1, k2.trans h2, k3.trans h3, k4.trans h4, ?_, ?_⟩
    · intro i j
      show ((List.range image.cols).foldl (writePixel image n) _).1.val i j = _
      rw [k5, h5]
      exact ite_canvas_step i j n image.cols
        (fun i j => (⟨((image.val i j).val : α) * (1 / 255), 0⟩ : Cplx α)) _
    · intro i j
      show ((List.range image.cols).foldl (writePixel image n) _).2.val i j = _
      rw [k6, h6]
      exact ite_canvas_step i j n image.cols (fun i j => 255 - (image.val i j).val) _

/-- Entries of the canvas `inverted`: the inverted image in the top-left corner and
zero elsewhere. -/
theorem paddedCanvas_inverted_val (filterSize : Size) (image : Image) (i j : Nat) :
    (paddedCanvas (α := α) filterSize image).2.val i j =
      if i < image.rows ∧ j < image.cols then 255 - (image.val i j).val else 0 := by
  unfold paddedCanvas
  exact (writeRow_fold image image.rows _).2.2.2.2.2 i j

/-- Entries of the canvas `src`. -/
theorem paddedCanvas_src_val (filterSize : Size) (image : Image) (i j : Nat) :
    (paddedCanvas (α := α) filterSize image).1.val i j =
      if i < image.rows ∧ j < image.cols then ⟨((image.val i j).val : α) * (1 / 255), 0⟩
      else ⟨1, 0⟩ := by
  unfold paddedCanvas
  exact (writeRow_fold image image.rows _).2.2.2.2.1 i j

/-- Size of both canvases. -/
theorem paddedCanvas_size (filterSize : Size) (image : Image) :
    (paddedCanvas (α := α) filterSize image).1.rows = filterSize.height.toNat ∧
    (paddedCanvas (α := α) filterSize image).1.cols = filterSize.width.toNat ∧
    (paddedCanvas (α := α) filterSize image).2.rows = filterSize.height.toNat ∧
    (paddedCanvas (α := α) filterSize image).2.cols = filterSize.width.toNat := by
  unfold paddedCanvas
  obtain ⟨h1, h2, h3, h4, -, -⟩ := writeRow_fold (α := α) image image.rows
    (Mat.fill filterSize.height.toNat filterSize.width.toNat ⟨1, 0⟩,
     Mat.fill filterSize.height.toNat filterSize.width.toNat 0)
  exact ⟨h1, h2, h3, h4⟩

/-- The imaginary part of every entry of `src` is zero. -/
theorem paddedCanvas_src_im (filterSize : Size) (image : Image) (i j : Nat) :
    ((paddedCanvas (α := α) filterSize image).1.val i j).im = 0 := by
  rw [paddedCanvas_src_val]
  split_ifs <;> rfl

end canvas

theorem integral_corners (f : Nat → Nat → Int) (a b c d : Nat) (hab : a ≤ b) (hcd : c ≤ d) :
    (∑ i in Finset.range a, ∑ j in Finset.range c, f i j)
      + (∑ i in Finset.range b, ∑ j in Finset.range d, f i j)
      - (∑ i in Finset.range a, ∑ j in Finset.range d, f i j)
      - (∑ i in Finset.range b, ∑ j in Finset.range c, f i j)
      = ∑ i in Finset.Ico a b, ∑ j in Finset.Ico c d, f i j := by
  have inner : ∀ i, ∑ j in Finset.Ico c d, f i j
      = ∑ j in Finset.range d, f i j - ∑ j in Finset.range c, f i j :=
    fun i => Finset.sum_Ico_eq_sub (f i) hcd
  simp only [inner]
  rw [Finset.sum_Ico_eq_sub _ hab, Finset.sum_sub_distrib, Finset.sum_sub_distrib]
  ring

theorem sum_Ico_indicator (g : Nat → Nat → Int) (a b c d rows cols : Nat) :
    ∑ i in Finset.Ico a b, ∑ j in Finset.Ico c d, (if i < rows ∧ j < cols then g i j else 0)
      = ∑ i in Finset.range rows, ∑ j in Finset.range cols,
          (if a ≤ i ∧ i < b ∧ c ≤ j ∧ j < d then g i j else 0) := by
  rw [← Finset.sum_product', ← Finset.sum_product', ← Finset.sum_filter, ← Finset.sum_filter]
  apply Finset.sum_congr _ (fun _ _ => rfl)
  ext ⟨i, j⟩
  simp only [Finset.mem_filter, Finset.mem_product, Finset.mem_Ico, Finset.mem_range]
  tauto

/-- Four corner lookups in the summed-area table of the inverted canvas give the
direct pixel scan of the rectangle, as a 32-bit value. -/
theorem patchsum_eq_inkMass (image : Image) (inv : Mat Nat)
    (hinv : ∀ i j, inv.val i j =
      if i < image.rows ∧ j < image.cols then 255 - (image.val i j).val else 0)
    (W H : Int) (hW : (image.cols : Int) ≤ W) (hH : (image.rows : Int) ≤ H) (rect : Rect) :
    patchsum (cv_integral inv) (rect.inter ⟨0, 0, W, H⟩) = wrapInt32 (inkMass image rect) := by
  unfold Rect.inter
  simp only
  split_ifs with hempty
  · have hz : inkMass image rect = 0 := by
      unfold inkMass
      apply Finset.sum_eq_zero
      intro r hr
      apply Finset.sum_eq_zero
      intro c hc
      rw [Finset.mem_range] at hr hc
      rw [if_neg]
      omega
    rw [hz]
    simp [patchsum, Mat.getPt, Mat.get, Rect.tl, Rect.br, cv_integral, wrapInt32]
  · have hw : 0 < min (rect.x + rect.width) (0 + W) - max rect.x 0 := by omega
    have hh : 0 < min (rect.y + rect.height) (0 + H) - max rect.y 0 := by omega
    simp only [patchsum, Mat.getPt, Mat.get, Rect.tl, Rect.br, cv_integral]
    rw [wrapInt32_patchsum]
    congr 1
    rw [integral_corners _ _ _ _ _ (by omega) (by omega)]
    simp only [hinv]
    have hcast : ∀ i j : Nat,
        ((if i < image.rows ∧ j < image.cols then 255 - (image.val i j).val else 0 : Nat) : Int)
          = if i < image.rows ∧ j < image.cols then ((255 - (image.val i j).val : Nat) : Int)
            else 0 := by
      intro i j; split_ifs <;> simp
    simp only [hcast]
    rw [sum_Ico_indicator (fun i j => ((255 - (image.val i j).val : Nat) : Int))]
    unfold inkMass
    apply Finset.sum_congr rfl
    intro r hr
    apply Finset.sum_congr rfl
    intro c hc
    rw [Finset.mem_range] at hr hc
    apply if_congr _ rfl rfl
    omega

theorem truncToInt_ge (n : Int) (x : ℚ) (h : (n : ℚ) ≤ x) : n ≤ truncToInt x := by
  unfold truncToInt
  split_ifs
  · exact Int.le_floor.mpr h
  · exact le_trans (Int.le_floor.mpr h) (Int.floor_le_ceil x)

theorem forLoop_ok {σ : Type} (P : σ → Prop) (body : Int → σ → Except Failure σ)
    (stop step lo : Int) (hstep : 0 < step)
    (hbody : ∀ i s, lo ≤ i → i < stop → P s → ∃ s', body i s = .ok s' ∧ P s') :
    ∀ (fuel : Nat) (i : Int) (s : σ), lo ≤ i → (stop - i).toNat ≤ fuel → P s →
      ∃ s', forLoop body stop step fuel i s = .ok s' ∧ P s' := by
  intro fuel
  induction fuel with
  | zero =>
    intro i s _ hfuel hP
    have : ¬ i < stop := by omega
    exact ⟨s, by simp [forLoop, this], hP⟩
  | succ n ih =>
    intro i s hlo hfuel hP
    by_cases hi : i < stop
    · obtain ⟨s', hs', hP'⟩ := hbody i s hlo hi hP
      obtain ⟨s'', hs'', hP''⟩ := ih (i + step) s' (by omega) (by omega) hP'
      exact ⟨s'', by simp [forLoop, hi, hs', hs''], hP''⟩
    · exact ⟨s, by simp [forLoop, hi], hP⟩

section sampling
variable {α : Type} [LinearOrderedField α]

theorem sampleAt_ok (tiles numOrients tileSize : Nat) (rect : Rect) (k : Nat)
    (response : Mat α) (y x : Int) (hist : List α) (hts : 0 < tileSize)
    (hy : rect.y ≤ y) (hy' : y < rect.y + tiles * tileSize)
    (hx : rect.x ≤ x) (hx' : x < rect.x + tiles * tileSize) :
    ∃ hist', sampleAt tiles numOrients tileSize rect k response y x hist = .ok hist' ∧
      hist'.length = hist.length := by
  have hdiv : ∀ r : Int, 0 ≤ r → r < tiles * tileSize →
      0 ≤ Int.tdiv r tileSize ∧ (Int.tdiv r tileSize).toNat < tiles := by
    intro r h0 h1
    rw [Int.tdiv_eq_ediv h0 (by omega)]
    have h3 : r / (tileSize : Int) < tiles := Int.ediv_lt_of_lt_mul (by omega) h1
    have h2 : 0 ≤ r / (tileSize : Int) := Int.ediv_nonneg h0 (by omega)
    exact ⟨h2, by omega⟩
  obtain ⟨ty0, ty1⟩ := hdiv (y - rect.y) (by omega) (by omega)
  obtain ⟨tx0, tx1⟩ := hdiv (x - rect.x) (by omega) (by omega)
  unfold sampleAt
  by_cases h1 : y < 0 ∨ x < 0 ∨ y ≥ response.rows ∨ x ≥ response.cols
  · rw [if_pos h1]
    exact ⟨hist, rfl, rfl⟩
  · rw [if_neg h1]
    simp only []
    rw [if_neg (not_not.mpr ⟨tx0, ty0⟩), if_neg (not_not.mpr ⟨tx1, ty1⟩)]
    exact ⟨_, rfl, by simp⟩

theorem sampleMap_ok (tiles numOrients tileSize : Nat) (rect : Rect) (k : Nat)
    (response : Mat α) (hist : List α) (hts : 0 < tileSize)
    (hw : rect.width = tiles * tileSize) (hh : rect.height = tiles * tileSize) :
    ∃ hist', sampleMap tiles numOrients tileSize rect k response hist = .ok hist' ∧
      hist'.length = hist.length := by
  unfold sampleMap
  have hhalf : (0 : ℚ) ≤ (tileSize : ℚ) / 2 := by positivity
  have hy0 : rect.y ≤ truncToInt ((rect.y : ℚ) + (tileSize : ℚ) / 2) :=
    truncToInt_ge _ _ (by linarith)
  have hx0 : rect.x ≤ truncToInt ((rect.x : ℚ) + (tileSize : ℚ) / 2) :=
    truncToInt_ge _ _ (by linarith)
  obtain ⟨h', hh', hlen⟩ := forLoop_ok (fun h : List α => h.length = hist.length)
    (fun y hist =>
      forLoop (fun x hist => sampleAt tiles numOrients tileSize rect k response y x hist)
        rect.br.x tileSize (rect.br.x - truncToInt ((rect.x : ℚ) + (tileSize : ℚ) / 2)).toNat
        (truncToInt ((rect.x : ℚ) + (tileSize : ℚ) / 2)) hist)
    rect.br.y tileSize rect.y (by omega)
    (by
      intro y s hy hy' hs
      exact forLoop_ok (fun h : List α => h.length = hist.length) _ rect.br.x tileSize rect.x
        (by omega)
        (by
          intro x s' hx hx' hs'
          obtain ⟨r, hr, hl⟩ := sampleAt_ok tiles numOrients tileSize rect k response y x s' hts
            hy (by simp only [Rect.br] at hy'; omega) hx (by simp only [Rect.br] at hx'; omega)
          exact ⟨r, hr, hl.trans hs'⟩)
        _ _ s hx0 le_rfl hs)
    _ _ hist hy0 le_rfl rfl
  exact ⟨h', hh', hlen⟩

theorem sampleResponses_ok (tiles numOrients tileSize : Nat) (rect : Rect) (hts : 0 < tileSize)
    (hw : rect.width = tiles * tileSize) (hh : rect.height = tiles * tileSize)
    (responses : List (Mat α)) :
    ∀ (k : Nat) (hist : List α),
      ∃ hist', sampleResponses tiles numOrients tileSize rect k responses hist = .ok hist' ∧
        hist'.length = hist.length := by
  induction responses with
  | nil => intro k hist; exact ⟨hist, rfl, rfl⟩
  | cons r rest ih =>
    intro k hist
    obtain ⟨h1, e1, l1⟩ := sampleMap_ok tiles numOrients tileSize rect k r hist hts hw hh
    obtain ⟨h2, e2, l2⟩ := ih (k + 1) h1
    exact ⟨h2, by simp [sampleResponses, e1, e2], l2.trans l1⟩

end sampling

section facts
variable {α : Type} [LinearOrderedField α]

theorem normalizeHistogram_l2 (sqrt : α → α) (h : List α) :
    normalizeHistogram sqrt "l2" h =
      .ok (h.map fun x => x / (sqrt (h.foldl (fun sum x => sum + x * x) 0) + FLT_EPSILON)) := by
  simp [normalizeHistogram]

theorem normalizeHistogram_lowe (sqrt : α → α) (h : List α) :
    normalizeHistogram sqrt "lowe" h = .ok (cv_normalize_L1 h) := by
  simp [normalizeHistogram]

theorem normalizeHistogram_none (sqrt : α → α) (h : List α) :
    normalizeHistogram sqrt "none" h = .ok h := by
  simp [normalizeHistogram]

theorem normalizeHistogram_ok (sqrt : α → α) (mode : String) (h : List α)
    (hmode : supportedNormalization mode) :
    ∃ d, normalizeHistogram sqrt mode h = .ok d ∧ d.length = h.length := by
  rcases hmode with rfl | rfl | rfl
  · exact ⟨_, normalizeHistogram_l2 sqrt h, by simp⟩
  · exact ⟨_, normalizeHistogram_lowe sqrt h, by simp [cv_normalize_L1]⟩
  · exact ⟨_, normalizeHistogram_none sqrt h, rfl⟩

theorem normalizeHistogram_unsupported (sqrt : α → α) (mode : String) (h : List α)
    (hmode : ¬ supportedNormalization mode) :
    ∃ what, normalizeHistogram sqrt mode h = .error (.runtime_error what) := by
  have h1 : mode ≠ "l2" := fun e => hmode (Or.inl e)
  have h2 : mode ≠ "lowe" := fun e => hmode (Or.inr (Or.inl e))
  have h3 : mode ≠ "none" := fun e => hmode (Or.inr (Or.inr e))
  refine ⟨"unsupported histogram normalization method passed (" ++ mode ++ ")." ++
    "Allowed methods are : lowe, l2, none.", ?_⟩
  simp [normalizeHistogram, h1, h2, h3]

/-- Success of the feature size computation and the values it gives. -/
theorem featureSize_spec (g : galif_generator α) (image : Image) (fs ts : Nat)
    (h : g.featureSize image = .ok (fs, ts)) :
    ¬ roundToDouble (((image.cols * image.rows : Nat) : ℚ) * g._featureSize) < 0 ∧
      g._tiles ≠ 0 ∧ ts * g._tiles = fs ∧ g._tiles ∣ fs ∧
      (truncToInt (sqrtDouble (roundToDouble
        (((image.cols * image.rows : Nat) : ℚ) * g._featureSize)))).toNat ≤ fs ∧
      (∀ m, g._tiles ∣ m →
        (truncToInt (sqrtDouble (roundToDouble
          (((image.cols * image.rows : Nat) : ℚ) * g._featureSize)))).toNat ≤ m → fs ≤ m) := by
  dsimp only [galif_generator.featureSize] at h
  by_cases hprod : roundToDouble (((image.cols * image.rows : Nat) : ℚ) * g._featureSize) < 0
  · rw [if_pos hprod] at h
    cases h
  by_cases ht0 : g._tiles = 0
  · rw [if_neg hprod, if_pos ht0] at h
    cases h
  rw [if_neg hprod, if_neg ht0] at h
  injection h with h
  injection h with h1 h2
  refine ⟨hprod, ht0, ?_⟩
  revert h1 h2
  generalize (truncToInt (sqrtDouble (roundToDouble
    (((image.cols * image.rows : Nat) : ℚ) * g._featureSize)))).toNat = n0
  generalize g._tiles = t at ht0
  intro h1 h2
  have hmodlt := Nat.mod_lt n0 (show t > 0 by omega)
  have hdm := Nat.div_add_mod n0 t
  have hfs : fs = t * (if n0 % t ≠ 0 then n0 / t + 1 else n0 / t) := by
    rw [← h1]
    split_ifs with hmod
    · rw [Nat.mul_add]; omega
    · omega
  have hts : ts = (if n0 % t ≠ 0 then n0 / t + 1 else n0 / t) := by
    rw [← h2, h1, hfs, Nat.mul_div_cancel_left _ (by omega)]
  refine ⟨by rw [hts, hfs]; ring, ⟨_, hfs⟩, ?_, ?_⟩
  · rw [← h1]; split_ifs <;> omega
  · intro m hm hle
    rw [← h1]
    split_ifs with hmod
    · obtain ⟨q, rfl⟩ := hm
      have hq : n0 / t < q := by
        by_contra hcon
        have : q ≤ n0 / t := by omega
        have : t * q ≤ t * (n0 / t) := Nat.mul_le_mul_left t this
        omega
      have : t * (n0 / t + 1) ≤ t * q := Nat.mul_le_mul_left t hq
      rw [Nat.mul_add] at this
      omega
    · exact hle

/-- The feature size computation has a value for a region fraction that is not
negative and a tile count that is not zero. -/
theorem featureSize_ok (g : galif_generator α) (image : Image)
    (hfs : 0 ≤ g._featureSize) (ht : 1 ≤ g._tiles) :
    ∃ fs ts, g.featureSize image = .ok (fs, ts) := by
  have hprod : ¬ roundToDouble (((image.cols * image.rows : Nat) : ℚ) * g._featureSize) < 0 :=
    not_lt.mpr (roundBinary_nonneg _ _ _ (mul_nonneg (Nat.cast_nonneg _) hfs))
  have ht0 : g._tiles ≠ 0 := by omega
  dsimp only [galif_generator.featureSize]
  rw [if_neg hprod, if_neg ht0]
  exact ⟨_, _, rfl⟩

theorem featureSize_views (g : galif_generator α) (image : Image) (fs ts : Nat)
    (h : g.featureSize image = .ok (fs, ts)) :
    g.featureSizePx image = fs ∧ g.tileSizePx image = ts := by
  simp [galif_generator.featureSizePx, galif_generator.tileSizePx, h]

/-- Value of `patchsum` computed by `extract`: the direct pixel scan of the region, as
a 32-bit value. -/
theorem patchsumOf_eq_inkMass (g : galif_generator α) (image : Image) (keypoint : ℚ × ℚ)
    (hw : (image.cols : Int) ≤ g._filterSize.width)
    (hh : (image.rows : Int) ≤ g._filterSize.height) :
    g.patchsumOf image keypoint
      = wrapInt32 (inkMass image (g.supportRect image keypoint)) := by
  unfold galif_generator.patchsumOf
  simp only
  obtain ⟨-, h2, h3, -⟩ := paddedCanvas_size (α := α) g._filterSize image
  have h1 := (paddedCanvas_size (α := α) g._filterSize image).1
  rw [h1, h2]
  exact patchsum_eq_inkMass image _ (paddedCanvas_inverted_val g._filterSize image) _ _
    (by omega) (by omega) _

theorem inkMass_zero_side (image : Image) (rect : Rect) (h : rect.width = 0) :
    inkMass image rect = 0 := by
  unfold inkMass
  apply Finset.sum_eq_zero
  intro r _
  apply Finset.sum_eq_zero
  intro c _
  rw [if_neg]
  omega

theorem inkMass_eq_zero_iff (image : Image) (rect : Rect) :
    inkMass image rect = 0 ↔
      ∀ r c : Nat, r < image.rows → c < image.cols →
        rect.y ≤ (r : Int) → (r : Int) < rect.y + rect.height →
        rect.x ≤ (c : Int) → (c : Int) < rect.x + rect.width → image.val r c = 255 := by
  unfold inkMass
  rw [Finset.sum_eq_zero_iff_of_nonneg]
  · constructor
    · intro h r c hr hc h1 h2 h3 h4
      have h5 := h r (Finset.mem_range.mpr hr)
      rw [Finset.sum_eq_zero_iff_of_nonneg] at h5
      · have h6 := h5 c (Finset.mem_range.mpr hc)
        rw [if_pos ⟨h1, h2, h3, h4⟩] at h6
        have h7 := (image.val r c).isLt
        apply Fin.ext
        have h8 : ((255 : Fin 256) : Nat) = 255 := rfl
        omega
      · intro c _
        split_ifs <;> omega
    · intro h r hr
      apply Finset.sum_eq_zero
      intro c hc
      split_ifs with hcond
      · have := h r c (Finset.mem_range.mp hr) (Finset.mem_range.mp hc) hcond.1 hcond.2.1
          hcond.2.2.1 hcond.2.2.2
        rw [this]
        rfl
      · rfl
  · intro r _
    apply Finset.sum_nonneg
    intro c _
    split_ifs <;> omega

end facts

section facts
variable {α : Type} [LinearOrderedField α]

/-- The loop body of `extract` for one keypoint, in terms of `describe`. -/
theorem extractKeypoint_eq (sqrt : α → α) (g : galif_generator α)
    (smoothed : Nat → Nat → Nat → α) (image : Image) (fs ts : Nat)
    (hfeat : g.featureSize image = .ok (fs, ts))
    (hw : (image.cols : Int) ≤ g._filterSize.width)
    (hh : (image.rows : Int) ≤ g._filterSize.height)
    (i : Nat) (keypoint : ℚ × ℚ) (out : List (List α) × List Nat) :
    g.extractKeypoint sqrt
        ⟨(paddedCanvas (α := α) g._filterSize image).1.cols,
         (paddedCanvas (α := α) g._filterSize image).1.rows⟩
        (cv_integral (paddedCanvas (α := α) g._filterSize image).2)
        (g.responsesOf smoothed image) fs ts i keypoint out
      = match g.describe sqrt smoothed image keypoint with
        | .ok d => .ok (out.1 ++ [d],
            if g.patchsumOf image keypoint = 0 then out.2.set i 1 else out.2)
        | .error e => .error e := by
  obtain ⟨hv1, hv2⟩ := featureSize_views g image fs ts hfeat
  obtain ⟨-, -, hts, -, -, -⟩ := featureSize_spec g image fs ts hfeat
  have hps : g.patchsumOf image keypoint =
      patchsum (cv_integral (paddedCanvas (α := α) g._filterSize image).2)
        ((keypointRect fs keypoint).inter
          ⟨0, 0, (paddedCanvas (α := α) g._filterSize image).1.cols,
            (paddedCanvas (α := α) g._filterSize image).1.rows⟩) := by
    simp only [galif_generator.patchsumOf, galif_generator.supportRect, hv1]
  have hink := patchsumOf_eq_inkMass g image keypoint hw hh
  unfold galif_generator.extractKeypoint galif_generator.describe
  simp only [← hps]
  by_cases hzero : g.patchsumOf image keypoint = 0
  · simp only [hzero, if_true]
  · simp only [hzero, if_false]
    have hfs0 : fs ≠ 0 := by
      intro h0
      apply hzero
      rw [hink, inkMass_zero_side _ _
        (by simp [galif_generator.supportRect, hv1, keypointRect, h0])]
      exact wrapInt32_zero
    have hts0 : 0 < ts := by
      rcases Nat.eq_zero_or_pos ts with h | h
      · exfalso; apply hfs0; rw [← hts, h]; simp
      · exact h
    obtain ⟨hist, hhist, -⟩ := sampleResponses_ok g._tiles g._numOrients ts
      ⟨(keypointRect fs keypoint).x + ts, (keypointRect fs keypoint).y + ts,
        (keypointRect fs keypoint).width, (keypointRect fs keypoint).height⟩ hts0
      (by simp only [keypointRect, ← hts]; push_cast; ring)
      (by simp only [keypointRect, ← hts]; push_cast; ring)
      (g.responsesOf smoothed image) 0
      (List.replicate (g._tiles * g._tiles * g._numOrients) 0)
    have hsamp : g.sampledHistogram smoothed image keypoint = hist := by
      simp only [galif_generator.sampledHistogram, galif_generator.supportRect, hv1, hv2, hhist]
    simp only [hhist, hsamp]
    cases normalizeHistogram sqrt g._normalizeHist hist <;> rfl

/-- The keypoint loop of `extract`, in terms of `describeAll`. -/
theorem extractLoop_eq (sqrt : α → α) (g : galif_generator α)
    (smoothed : Nat → Nat → Nat → α) (image : Image)
    (srcSize : Size) (integral : Mat Int) (responses : List (Mat α)) (fs ts : Nat)
    (hstep : ∀ i keypoint out,
      g.extractKeypoint sqrt srcSize integral responses fs ts i keypoint out
        = match g.describe sqrt smoothed image keypoint with
          | .ok d => .ok (out.1 ++ [d],
              if g.patchsumOf image keypoint = 0 then out.2.set i 1 else out.2)
          | .error e => .error e)
    (keypoints : List (ℚ × ℚ)) :
    ∀ (i : Nat) (features : List (List α)) (done : List Nat), done.length = i →
      g.extractLoop sqrt srcSize integral responses fs ts i keypoints
          (features, done ++ List.replicate keypoints.length 0)
        = match g.describeAll sqrt smoothed image keypoints with
          | .ok ds => .ok (features ++ ds, done ++ keypoints.map (g.emptyFlagOf image))
          | .error e => .error e := by
  induction keypoints with
  | nil => intro i features done _; simp [galif_generator.extractLoop, galif_generator.describeAll]
  | cons k rest ih =>
    intro i features done hdone
    have hset : (done ++ List.replicate (k :: rest).length 0).set i 1
        = done ++ 1 :: List.replicate rest.length 0 := by
      subst hdone
      simp [List.replicate_succ]
    have hkeep : done ++ List.replicate (k :: rest).length 0
        = done ++ 0 :: List.replicate rest.length 0 := by
      simp [List.replicate_succ]
    unfold galif_generator.extractLoop galif_generator.describeAll
    rw [hstep]
    cases hd : g.describe sqrt smoothed image k with
    | error e => rfl
    | ok d =>
      simp only
      by_cases hk : g.patchsumOf image k = 0
      · rw [if_pos hk, hset]
        have := ih (i + 1) (features ++ [d]) (done ++ [1]) (by simp [hdone])
        simp only [List.append_assoc, List.singleton_append] at this
        rw [this]
        cases g.describeAll sqrt smoothed image rest <;>
          simp [galif_generator.emptyFlagOf, hk, consOutcome]
      · rw [if_neg hk, hkeep]
        have := ih (i + 1) (features ++ [d]) (done ++ [0]) (by simp [hdone])
        simp only [List.append_assoc, List.singleton_append] at this
        rw [this]
        cases g.describeAll sqrt smoothed image rest <;>
          simp [galif_generator.emptyFlagOf, hk, consOutcome]

/-- Method `extract` called with empty output vectors, in terms of `describeAll`. -/
theorem extract_eq (sqrt : α → α) (g : galif_generator α)
    (smoothed : Nat → Nat → Nat → α) (image : Image) (keypoints : List (ℚ × ℚ))
    (hsquare : g._filterSize.width = g._filterSize.height) :
    g.extract sqrt smoothed image keypoints [] []
      = match g.assertImageSize image with
        | .error e => .error e
        | .ok _ =>
          match g.featureSize image with
          | .error e => .error e
          | .ok _ =>
            match g.describeAll sqrt smoothed image keypoints with
            | .ok ds => .ok (ds, keypoints.map (g.emptyFlagOf image))
            | .error e => .error e := by
  unfold galif_generator.extract
  cases hassert : g.assertImageSize image with
  | error e => rfl
  | ok u =>
    have hfit : (image.cols : Int) ≤ g._filterSize.height ∧
        (image.rows : Int) ≤ g._filterSize.width := by
      unfold galif_generator.assertImageSize at hassert
      by_contra hcon
      rw [if_neg hcon] at hassert
      cases hassert
    simp only
    rw [if_neg (by
      rw [not_not]
      exact paddedCanvas_src_im g._filterSize image _ _)]
    cases hfeat : g.featureSize image with
    | error e => rfl
    | ok r =>
      obtain ⟨fs, ts⟩ := r
      obtain ⟨-, hv2⟩ := featureSize_views g image fs ts hfeat
      have hresp : ((List.range g._numOrients).map fun k =>
          (⟨image.rows + 2 * ts, image.cols + 2 * ts, smoothed k⟩ : Mat α))
          = g.responsesOf smoothed image := by
        simp only [galif_generator.responsesOf, hv2]
      simp only
      rw [hresp]
      have hloop := extractLoop_eq sqrt g smoothed image
        ⟨(paddedCanvas (α := α) g._filterSize image).1.cols,
         (paddedCanvas (α := α) g._filterSize image).1.rows⟩
        (cv_integral (paddedCanvas (α := α) g._filterSize image).2)
        (g.responsesOf smoothed image) fs ts
        (fun i keypoint out => extractKeypoint_eq sqrt g smoothed image fs ts hfeat
          (by omega) (by omega) i keypoint out)
        keypoints 0 [] [] rfl
      simp only [List.nil_append] at hloop
      simpa [vectorResize] using hloop

/-- Success of `describeAll`: every keypoint has an outcome, which is its descriptor. -/
theorem describeAll_ok_iff (sqrt : α → α) (g : galif_generator α)
    (smoothed : Nat → Nat → Nat → α) (image : Image) (keypoints : List (ℚ × ℚ))
    (ds : List (List α)) :
    g.describeAll sqrt smoothed image keypoints = .ok ds ↔
      (∀ k ∈ keypoints, ∃ d, g.describe sqrt smoothed image k = .ok d) ∧
      ds = keypoints.map (g.descriptorOf sqrt smoothed image) := by
  induction keypoints generalizing ds with
  | nil =>
    simp only [galif_generator.describeAll, List.map_nil, List.not_mem_nil, false_implies,
      implies_true, true_and]
    constructor
    · intro h; injection h with h; exact h.symm
    · intro h; rw [h]
  | cons k rest ih =>
    unfold galif_generator.describeAll
    cases hd : g.describe sqrt smoothed image k with
    | error e =>
      simp only [consOutcome]
      constructor
      · intro h; cases h
      · rintro ⟨hall, -⟩
        obtain ⟨d, hd'⟩ := hall k (List.mem_cons_self _ _)
        rw [hd] at hd'
        cases hd'
    | ok d =>
      have hdesc : g.descriptorOf sqrt smoothed image k = d := by
        unfold galif_generator.descriptorOf
        rw [hd]
      cases hrest : g.describeAll sqrt smoothed image rest with
      | error e =>
        simp only [consOutcome]
        constructor
        · intro h; cases h
        · rintro ⟨hall, -⟩
          have := (ih (rest.map (g.descriptorOf sqrt smoothed image))).mpr
            ⟨fun a ha => hall a (List.mem_cons_of_mem _ ha), rfl⟩
          rw [hrest] at this
          cases this
      | ok ds' =>
        obtain ⟨hall, hds'⟩ := (ih ds').mp hrest
        simp only [consOutcome, List.map_cons, hdesc]
        constructor
        · intro h
          injection h with h
          refine ⟨?_, by rw [← h, hds']⟩
          intro a ha
          rcases List.mem_cons.mp ha with rfl | ha
          · exact ⟨d, hd⟩
          · exact hall a ha
        · rintro ⟨-, h⟩
          rw [h, hds']

end facts

/-! ### The constructor -/

theorem le_nextOptimalDFTSize (fuel n : Nat) : n ≤ nextOptimalDFTSize fuel n := by
  induction fuel generalizing n with
  | zero => simp [nextOptimalDFTSize]
  | succ k ih =>
    unfold nextOptimalDFTSize
    split_ifs
    · exact le_rfl
    · exact le_trans (Nat.le_succ n) (ih (n + 1))

theorem one_le_nextOptimalDFTSize (n : Nat) : 1 ≤ nextOptimalDFTSize (n + 1) n := by
  unfold nextOptimalDFTSize
  split_ifs with h
  · rcases Nat.eq_zero_or_pos n with h0 | h0
    · subst h0; simp [isOptimalDFTSize, stripFactor] at h
    · exact h0
  · exact le_trans (Nat.le_add_left 1 n) (le_nextOptimalDFTSize n (n + 1))

/-- For an argument that is not negative `getOptimalDFTSize` returns a size that is
positive and not below the argument. -/
theorem getOptimalDFTSize_ge (size0 : Int) (h : 0 ≤ size0) :
    size0 ≤ getOptimalDFTSize size0 ∧ 1 ≤ getOptimalDFTSize size0 := by
  unfold getOptimalDFTSize
  rw [if_neg (by omega)]
  have h1 := le_nextOptimalDFTSize (size0.toNat + 1) size0.toNat
  have h2 := one_le_nextOptimalDFTSize size0.toNat
  constructor <;> omega

/-- The value of `getOptimalDFTSize` is `-1` or positive. -/
theorem getOptimalDFTSize_cases (size0 : Int) :
    getOptimalDFTSize size0 = -1 ∨ 1 ≤ getOptimalDFTSize size0 := by
  by_cases h : size0 < 0
  · left; simp [getOptimalDFTSize, h]
  · right; exact (getOptimalDFTSize_ge size0 (by omega)).2

theorem foldl_invariant {β γ : Type} (P : β → Prop) (f : β → γ → β)
    (h : ∀ b a, P b → P (f b a)) (l : List γ) (init : β) (hinit : P init) :
    P (l.foldl f init) := by
  induction l generalizing init with
  | nil => exact hinit
  | cons a l ih => exact ih _ (h _ _ hinit)

section construct

variable {α : Type} [LinearOrderedField α]

/-- Function `generate_gabor_filter` keeps the size of the matrix. -/
theorem generate_gabor_filter_size (exp cos sin : α → α) (M_PI : α) (image : Mat (Cplx α))
    (peakFreq theta sigma_x sigma_y : α) :
    (generate_gabor_filter exp cos sin M_PI image peakFreq theta sigma_x sigma_y).rows
        = image.rows ∧
    (generate_gabor_filter exp cos sin M_PI image peakFreq theta sigma_x sigma_y).cols
        = image.cols := by
  unfold generate_gabor_filter
  apply foldl_invariant (fun m : Mat (Cplx α) => m.rows = image.rows ∧ m.cols = image.cols)
  · intro m ny hm
    apply foldl_invariant (fun m : Mat (Cplx α) => m.rows = image.rows ∧ m.cols = image.cols)
    · intro m nx hm
      apply foldl_invariant
        (fun st : Mat (Cplx α) × α => st.1.rows = image.rows ∧ st.1.cols = image.cols)
      · intro st y hst
        apply foldl_invariant
          (fun st : Mat (Cplx α) × α => st.1.rows = image.rows ∧ st.1.cols = image.cols)
        · intro st x hst
          exact hst
        · exact hst
      · exact hm
    · exact hm
  · exact ⟨rfl, rfl⟩

/-- The loop that builds the filter bank: it fails on the first allocation if the
filter size is negative and stores one filter per orientation otherwise. -/
theorem buildFilterBank_eq (exp cos sin : α → α) (M_PI : α) (params : Params)
    (orients : List Nat) :
    ∀ gaborFilter : List (Mat (Cplx α)),
      buildFilterBank exp cos sin M_PI ⟨paddedSizeOf params, paddedSizeOf params⟩
          params.num_orients ((roundToDouble params.peak_frequency : ℚ) : α)
          ((sigmaXOf params : ℚ) : α) ((sigmaYOf params : ℚ) : α)
          orients gaborFilter
        = if paddedSizeOf params < 0 ∧ orients ≠ [] then
            .error (.cv_error "negative matrix size")
          else .ok (gaborFilter ++ orients.map (orientedFilter exp cos sin M_PI params)) := by
  induction orients with
  | nil => intro gaborFilter; simp [buildFilterBank]
  | cons i rest ih =>
    intro gaborFilter
    unfold buildFilterBank Mat.create
    by_cases hneg : paddedSizeOf params < 0
    · simp [hneg]
    · simp only [hneg, or_self, if_false, false_and]
      rw [ih]
      simp [hneg, orientedFilter]

/-- Result of the constructor. -/
theorem create_eq (exp cos sin : α → α) (M_PI : α) (params : Params) :
    galif_generator.create exp cos sin M_PI params
      = if 2 ^ 32 ≤ params.image_width ∨ 2 ^ 32 ≤ params.num_orients ∨
            2 ^ 32 ≤ params.tiles then
          .error (.undefined "configured value outside the range of uint")
        else
          match params.sampler_setup with
          | .error e => .error e
          | .ok _ =>
            if paddedSizeOf params < 0 ∧ params.num_orients ≠ 0 then
              .error (.cv_error "negative matrix size")
            else .ok (galif_generator.ofParams exp cos sin M_PI params) := by
  have h := buildFilterBank_eq exp cos sin M_PI params (List.range params.num_orients) []
  unfold paddedSizeOf sigmaYOf sigmaXOf at h
  unfold galif_generator.create
  by_cases hu : 2 ^ 32 ≤ params.image_width ∨ 2 ^ 32 ≤ params.num_orients ∨
      2 ^ 32 ≤ params.tiles
  · rw [if_pos hu, if_pos hu]
  · rw [if_neg hu, if_neg hu]
    cases hs : params.sampler_setup with
    | error e => rfl
    | ok u =>
      simp only
      rw [h]
      by_cases hneg : paddedSizeOf params < 0 ∧ params.num_orients ≠ 0
      · have hneg' := hneg
        unfold paddedSizeOf sigmaYOf sigmaXOf at hneg'
        rw [if_pos hneg, if_pos ⟨hneg'.1, by simpa using hneg'.2⟩]
      · have hneg' : ¬ (paddedSizeOf params < 0 ∧ List.range params.num_orients ≠ []) := by
          simpa using hneg
        unfold paddedSizeOf sigmaYOf sigmaXOf at hneg'
        rw [if_neg hneg, if_neg hneg']
        rfl

/-- The value of `sigma_x` is not negative for a line width that is not negative. -/
theorem sigmaXOf_nonneg (params : Params) (hlw : 0 ≤ params.line_width) :
    0 ≤ sigmaXOf params :=
  roundBinary_nonneg _ _ _
    (mul_nonneg (roundBinary_nonneg _ _ _ hlw) (Nat.cast_nonneg _))

/-- For a line width that is not negative and an image width in the range of `uint`
the argument of `getOptimalDFTSize` is not below `image_width`. -/
theorem le_paddingBound (params : Params) (hlw : 0 ≤ params.line_width)
    (hW : params.image_width < 2 ^ 32) :
    (params.image_width : Int) ≤ truncToInt (roundToDouble ((params.image_width : ℚ)
      + roundToDouble (3 * max (sigmaXOf params) (sigmaYOf params)))) := by
  have hmax : (0 : ℚ) ≤ max (sigmaXOf params) (sigmaYOf params) :=
    le_trans (sigmaXOf_nonneg params hlw) (le_max_left _ _)
  have h3 : (0 : ℚ) ≤ roundToDouble (3 * max (sigmaXOf params) (sigmaYOf params)) :=
    roundBinary_nonneg _ _ _ (by positivity)
  apply truncToInt_ge
  rw [Int.cast_natCast]
  apply le_roundBinary 53 (-1022) (by norm_num) (by norm_num) params.image_width
  · exact le_trans hW.le (Nat.pow_le_pow_right (by norm_num) (by norm_num))
  · linarith

/-- For a line width that is not negative and an image width in the range of `uint`
the filter size is positive and not below `image_width`. -/
theorem paddedSizeOf_ge (params : Params) (hlw : 0 ≤ params.line_width)
    (hW : params.image_width < 2 ^ 32) :
    (params.image_width : Int) ≤ paddedSizeOf params ∧ 1 ≤ paddedSizeOf params := by
  have htr := le_paddingBound params hlw hW
  obtain ⟨h1, h2⟩ := getOptimalDFTSize_ge _ (le_trans (Int.natCast_nonneg _) htr)
  exact ⟨le_trans htr h1, h2⟩

/-- For a line width that is not negative, counts in the range of `uint` and a
sampler that was set up, the constructor returns. -/
theorem create_ok (exp cos sin : α → α) (M_PI : α) (params : Params)
    (hlw : 0 ≤ params.line_width)
    (hu : ¬ (2 ^ 32 ≤ params.image_width ∨ 2 ^ 32 ≤ params.num_orients ∨
      2 ^ 32 ≤ params.tiles))
    (hs : params.sampler_setup = .ok ()) :
    galif_generator.create exp cos sin M_PI params
      = .ok (galif_generator.ofParams exp cos sin M_PI params) := by
  rw [create_eq, if_neg hu, hs]
  simp only
  rw [if_neg]
  have := (paddedSizeOf_ge params hlw (by omega)).2
  omega

/-- A constructed generator is the state `ofParams`. -/
theorem create_spec (exp cos sin : α → α) (M_PI : α) (params : Params)
    (g : galif_generator α) (h : galif_generator.create exp cos sin M_PI params = .ok g) :
    g = galif_generator.ofParams exp cos sin M_PI params ∧
      (params.num_orients ≠ 0 → 1 ≤ paddedSizeOf params) := by
  rw [create_eq] at h
  by_cases hu : 2 ^ 32 ≤ params.image_width ∨ 2 ^ 32 ≤ params.num_orients ∨
      2 ^ 32 ≤ params.tiles
  · rw [if_pos hu] at h; cases h
  rw [if_neg hu] at h
  cases hs : params.sampler_setup with
  | error e => rw [hs] at h; cases h
  | ok u =>
    rw [hs] at h
    simp only at h
    by_cases hneg : paddedSizeOf params < 0 ∧ params.num_orients ≠ 0
    · rw [if_pos hneg] at h; cases h
    · rw [if_neg hneg] at h
      injection h with h
      refine ⟨h.symm, fun ho => ?_⟩
      rcases getOptimalDFTSize_cases (truncToInt (roundToDouble ((params.image_width : ℚ)
        + roundToDouble (3 * max (sigmaXOf params) (sigmaYOf params))))) with h1 | h1
      · exfalso; apply hneg; refine ⟨?_, ho⟩; unfold paddedSizeOf; omega
      · exact h1

/-- The configured counts of a constructed generator are in the range of `uint`. -/
theorem create_range (exp cos sin : α → α) (M_PI : α) (params : Params)
    (g : galif_generator α) (h : galif_generator.create exp cos sin M_PI params = .ok g) :
    params.image_width < 2 ^ 32 ∧ params.num_orients < 2 ^ 32 ∧ params.tiles < 2 ^ 32 := by
  rw [create_eq] at h
  by_cases hu : 2 ^ 32 ≤ params.image_width ∨ 2 ^ 32 ≤ params.num_orients ∨
      2 ^ 32 ≤ params.tiles
  · rw [if_pos hu] at h; cases h
  · omega

end construct

/-! ### Scaling -/

section scaling

variable {α : Type} [LinearOrderedField α]

/-- Size of the image that `scale` returns: the longer side is `_width`. -/
theorem scale_spec (g : galif_generator α) (resample : Image → Nat → Nat → Nat → Nat → Fin 256)
    (image scaled : Image) (factor : ℚ)
    (h : g.scale resample image = .ok (scaled, factor)) :
    0 < image.rows ∧ 0 < image.cols ∧ 0 < scaled.rows ∧ 0 < scaled.cols ∧
      max scaled.cols scaled.rows = g._width := by
  unfold galif_generator.scale cv_resize at h
  by_cases hempty : image.rows = 0 ∨ image.cols = 0
  · simp [hempty] at h
  have hr : 0 < image.rows := by omega
  have hc : 0 < image.cols := by omega
  have hrq : (0 : ℚ) < image.rows := by exact_mod_cast hr
  have hcq : (0 : ℚ) < image.cols := by exact_mod_cast hc
  simp only [hempty, if_false] at h
  by_cases hwide : image.cols > image.rows
  · simp only [hwide, if_true] at h
    split_ifs at h with h1 h2
    injection h with h
    injection h with hs _
    have hlong : cvRound ((image.cols : ℚ) * ((g._width : ℚ) / (image.cols : ℚ)))
        = (g._width : Int) := by
      rw [mul_div_cancel₀ _ (ne_of_gt hcq)]
      exact_mod_cast cvRound_intCast (g._width : Int)
    have hshort : cvRound ((image.rows : ℚ) * ((g._width : ℚ) / (image.cols : ℚ)))
        ≤ (g._width : Int) := by
      apply cvRound_le
      rw [← mul_div_assoc, div_le_iff₀ hcq]
      push_cast
      have : (image.rows : ℚ) ≤ image.cols := by exact_mod_cast (le_of_lt hwide)
      have hW : (0 : ℚ) ≤ g._width := Nat.cast_nonneg _
      nlinarith
    rw [← hs]
    simp only
    refine ⟨hr, hc, by omega, by omega, ?_⟩
    omega
  · simp only [hwide, if_false] at h
    split_ifs at h with h1 h2
    injection h with h
    injection h with hs _
    have hlong : cvRound ((image.rows : ℚ) * ((g._width : ℚ) / (image.rows : ℚ)))
        = (g._width : Int) := by
      rw [mul_div_cancel₀ _ (ne_of_gt hrq)]
      exact_mod_cast cvRound_intCast (g._width : Int)
    have hshort : cvRound ((image.cols : ℚ) * ((g._width : ℚ) / (image.rows : ℚ)))
        ≤ (g._width : Int) := by
      apply cvRound_le
      rw [← mul_div_assoc, div_le_iff₀ hrq]
      push_cast
      have : (image.cols : ℚ) ≤ image.rows := by exact_mod_cast (not_lt.mp hwide)
      have hW : (0 : ℚ) ≤ g._width := Nat.cast_nonneg _
      nlinarith
    rw [← hs]
    simp only
    refine ⟨hr, hc, by omega, by omega, ?_⟩
    omega

end scaling

section outcome

variable {α : Type} [LinearOrderedField α]

/-- The loop body has a result exactly for an empty patch or a supported
normalization. -/
theorem describe_ok_iff (sqrt : α → α) (g : galif_generator α)
    (smoothed : Nat → Nat → Nat → α) (image : Image) (keypoint : ℚ × ℚ) :
    (∃ d, g.describe sqrt smoothed image keypoint = .ok d) ↔
      (g.patchsumOf image keypoint = 0 ∨ supportedNormalization g._normalizeHist) := by
  unfold galif_generator.describe
  by_cases hzero : g.patchsumOf image keypoint = 0
  · rw [if_pos hzero]
    exact ⟨fun _ => Or.inl hzero, fun _ => ⟨_, rfl⟩⟩
  · rw [if_neg hzero]
    constructor
    · rintro ⟨d, hd⟩
      right
      by_contra hmode
      obtain ⟨what, hw⟩ := normalizeHistogram_unsupported sqrt g._normalizeHist
        (g.sampledHistogram smoothed image keypoint) hmode
      rw [hw] at hd
      cases hd
    · rintro (h | h)
      · exact absurd h hzero
      · obtain ⟨d, hd, -⟩ := normalizeHistogram_ok sqrt g._normalizeHist
          (g.sampledHistogram smoothed image keypoint) h
        exact ⟨d, hd⟩

/-- A call of `extract` with empty output vectors that returns: the assertion passed,
the feature size has a value, the outputs hold the descriptor and the empty flag of
every keypoint in keypoint order, and the loop body had a result for every keypoint. -/
theorem extract_ok_spec (sqrt : α → α) (g : galif_generator α)
    (smoothed : Nat → Nat → Nat → α) (image : Image) (keypoints : List (ℚ × ℚ))
    (hsquare : g._filterSize.width = g._filterSize.height)
    (features : List (List α)) (emptyFeatures : List Nat)
    (h : g.extract sqrt smoothed image keypoints [] [] = .ok (features, emptyFeatures)) :
    (image.cols : Int) ≤ g._filterSize.width ∧ (image.rows : Int) ≤ g._filterSize.height ∧
    (∃ fs ts, g.featureSize image = .ok (fs, ts)) ∧
    features = keypoints.map (g.descriptorOf sqrt smoothed image) ∧
    emptyFeatures = keypoints.map (g.emptyFlagOf image) ∧
    (∀ k ∈ keypoints, ∃ d, g.describe sqrt smoothed image k = .ok d) := by
  rw [extract_eq sqrt g smoothed image keypoints hsquare] at h
  cases hassert : g.assertImageSize image with
  | error e => rw [hassert] at h; cases h
  | ok u =>
    have hfit : (image.cols : Int) ≤ g._filterSize.height ∧
        (image.rows : Int) ≤ g._filterSize.width := by
      unfold galif_generator.assertImageSize at hassert
      by_contra hcon
      rw [if_neg hcon] at hassert
      cases hassert
    cases hfeat : g.featureSize image with
    | error e => rw [hassert, hfeat] at h; cases h
    | ok r =>
      cases hall : g.describeAll sqrt smoothed image keypoints with
      | error e => rw [hassert, hfeat, hall] at h; cases h
      | ok ds =>
        rw [hassert, hfeat, hall] at h
        injection h with h
        injection h with h1 h2
        obtain ⟨hk, hds⟩ := (describeAll_ok_iff sqrt g smoothed image keypoints ds).mp hall
        exact ⟨by omega, by omega, ⟨r.1, r.2, rfl⟩, by rw [← h1, hds], h2.symm, hk⟩

/-- A call of `extract` with empty output vectors returns when the assertion passes,
the feature size has a value and every patch is empty or the normalization is
supported. -/
theorem extract_ok_of (sqrt : α → α) (g : galif_generator α)
    (smoothed : Nat → Nat → Nat → α) (image : Image) (keypoints : List (ℚ × ℚ))
    (hsquare : g._filterSize.width = g._filterSize.height)
    (hassert : g.assertImageSize image = .ok ())
    (hfeat : ∃ fs ts, g.featureSize image = .ok (fs, ts))
    (hall : ∀ k ∈ keypoints,
      g.patchsumOf image k = 0 ∨ supportedNormalization g._normalizeHist) :
    g.extract sqrt smoothed image keypoints [] []
      = .ok (keypoints.map (g.descriptorOf sqrt smoothed image),
             keypoints.map (g.emptyFlagOf image)) := by
  obtain ⟨fs, ts, hfeat⟩ := hfeat
  rw [extract_eq sqrt g smoothed image keypoints hsquare, hassert, hfeat]
  have := (describeAll_ok_iff sqrt g smoothed image keypoints
    (keypoints.map (g.descriptorOf sqrt smoothed image))).mpr
    ⟨fun k hk => (describe_ok_iff sqrt g smoothed image k).mpr (hall k hk), rfl⟩
  rw [this]

end outcome

/-! ## Claims

### Summed-area table (C10) -/

/-- The direct pixel scan lies between 0 and `255 * rows * cols`. -/
theorem inkMass_bounds (image : Image) (rect : Rect) :
    0 ≤ inkMass image rect ∧ inkMass image rect ≤ 255 * image.rows * image.cols := by
  unfold inkMass
  constructor
  · apply Finset.sum_nonneg
    intro i _
    apply Finset.sum_nonneg
    intro j _
    split_ifs
    · exact Int.natCast_nonneg _
    · exact le_rfl
  · calc ∑ r in Finset.range image.rows, ∑ c in Finset.range image.cols,
          (if rect.y ≤ (r : Int) ∧ (r : Int) < rect.y + rect.height ∧
              rect.x ≤ (c : Int) ∧ (c : Int) < rect.x + rect.width
            then ((255 - (image.val r c).val : Nat) : Int) else 0)
        ≤ ∑ _r in Finset.range image.rows, ∑ _c in Finset.range image.cols, (255 : Int) := by
          apply Finset.sum_le_sum
          intro i _
          apply Finset.sum_le_sum
          intro j _
          split_ifs <;> omega
      _ = 255 * image.rows * image.cols := by
          simp only [Finset.sum_const, Finset.card_range, smul_eq_mul, nsmul_eq_mul]
          ring

/-- C10 fails for the black image of 4096 x 4096 pixels on a canvas of the same size
and the rectangle that covers the image: the direct pixel sum is
`255 * 4096 * 4096 = 4278190080`, more than a 32-bit `int` holds, and the four corner
lookups in the `CV_32S` table give `-16777216`. -/
theorem patchsum_wraps_on_large_image :
    ((blackImage.cols : Int) ≤ 4096 ∧ (blackImage.rows : Int) ≤ 4096) ∧
    inkMass blackImage ⟨0, 0, 4096, 4096⟩ = 4278190080 ∧
    patchsum (cv_integral (paddedCanvas (α := ℚ) ⟨4096, 4096⟩ blackImage).2)
        ((⟨0, 0, 4096, 4096⟩ : Rect).inter
          ⟨0, 0, (paddedCanvas (α := ℚ) ⟨4096, 4096⟩ blackImage).1.cols,
            (paddedCanvas (α := ℚ) ⟨4096, 4096⟩ blackImage).1.rows⟩)
      = -16777216 := by
  have hink : inkMass blackImage ⟨0, 0, 4096, 4096⟩ = 4278190080 := by
    unfold inkMass
    have hterm : ∀ r ∈ Finset.range blackImage.rows, ∀ c ∈ Finset.range blackImage.cols,
        (if (⟨0, 0, 4096, 4096⟩ : Rect).y ≤ (r : Int) ∧
            (r : Int) < (⟨0, 0, 4096, 4096⟩ : Rect).y + (⟨0, 0, 4096, 4096⟩ : Rect).height ∧
            (⟨0, 0, 4096, 4096⟩ : Rect).x ≤ (c : Int) ∧
            (c : Int) < (⟨0, 0, 4096, 4096⟩ : Rect).x + (⟨0, 0, 4096, 4096⟩ : Rect).width
          then ((255 - (blackImage.val r c).val : Nat) : Int) else 0) = 255 := by
      intro r hr c hc
      rw [Finset.mem_range] at hr hc
      have hr' : r < 4096 := hr
      have hc' : c < 4096 := hc
      rw [if_pos (by simp only; omega)]
      rfl
    rw [Finset.sum_congr rfl (fun r hr => Finset.sum_congr rfl (fun c hc => hterm r hr c hc))]
    simp only [Finset.sum_const, Finset.card_range, smul_eq_mul, nsmul_eq_mul]
    rfl
  obtain ⟨h1, h2, -, -⟩ := paddedCanvas_size (α := ℚ) ⟨4096, 4096⟩ blackImage
  refine ⟨⟨by decide, by decide⟩, hink, ?_⟩
  rw [h1, h2]
  have h := patchsum_eq_inkMass blackImage _
    (paddedCanvas_inverted_val (α := ℚ) ⟨4096, 4096⟩ blackImage) 4096 4096
    (by decide) (by decide) ⟨0, 0, 4096, 4096⟩
  have e : ((Int.toNat 4096 : Nat) : Int) = 4096 := rfl
  rw [e, h, hink]
  rfl

/-- C10 (amended): for every scaled image whose sides do not exceed the filter size
and every rectangle, the patch sum computed from the four corner lookups in the
summed-area table of the inverted canvas, for the rectangle clipped to the canvas, is
the direct sum of `255 - intensity` over the pixels of the image inside the rectangle
reduced modulo `2^32` to the range of a 32-bit `int`; for an image with
`255 * rows * cols < 2^31` it is that direct sum itself, and it is zero exactly when
every such pixel has intensity 255. -/
theorem patchsum_matches_pixel_scan (α : Type) [LinearOrderedField α] (filterSize : Size)
    (image : Image) (rect : Rect)
    (hw : (image.cols : Int) ≤ filterSize.width)
    (hh : (image.rows : Int) ≤ filterSize.height) :
    patchsum (cv_integral (paddedCanvas (α := α) filterSize image).2)
        (rect.inter ⟨0, 0, (paddedCanvas (α := α) filterSize image).1.cols,
          (paddedCanvas (α := α) filterSize image).1.rows⟩)
      = wrapInt32 (inkMass image rect) ∧
    (255 * image.rows * image.cols < 2 ^ 31 →
      patchsum (cv_integral (paddedCanvas (α := α) filterSize image).2)
          (rect.inter ⟨0, 0, (paddedCanvas (α := α) filterSize image).1.cols,
            (paddedCanvas (α := α) filterSize image).1.rows⟩)
        = inkMass image rect ∧
      (patchsum (cv_integral (paddedCanvas (α := α) filterSize image).2)
          (rect.inter ⟨0, 0, (paddedCanvas (α := α) filterSize image).1.cols,
            (paddedCanvas (α := α) filterSize image).1.rows⟩) = 0 ↔
        ∀ r c : Nat, r < image.rows → c < image.cols →
          rect.y ≤ (r : Int) → (r : Int) < rect.y + rect.height →
          rect.x ≤ (c : Int) → (c : Int) < rect.x + rect.width → image.val r c = 255)) := by
  obtain ⟨h1, h2, -, -⟩ := paddedCanvas_size (α := α) filterSize image
  have hsum : patchsum (cv_integral (paddedCanvas (α := α) filterSize image).2)
      (rect.inter ⟨0, 0, (paddedCanvas (α := α) filterSize image).1.cols,
        (paddedCanvas (α := α) filterSize image).1.rows⟩)
      = wrapInt32 (inkMass image rect) := by
    rw [h1, h2]
    exact patchsum_eq_inkMass image _ (paddedCanvas_inverted_val filterSize image) _ _
      (by omega) (by omega) rect
  refine ⟨hsum, fun hsize => ?_⟩
  obtain ⟨b1, b2⟩ := inkMass_bounds image rect
  have hs : (255 : Int) * image.rows * image.cols < 2147483648 := by exact_mod_cast hsize
  have heq : wrapInt32 (inkMass image rect) = inkMass image rect :=
    wrapInt32_of_range _ (by omega) (by omega)
  rw [hsum, heq]
  exact ⟨rfl, inkMass_eq_zero_iff image rect⟩

/-- Instance of C10 (amended): the image `cornerStroke` on a canvas of side 3 and the
rectangle that covers the image. -/
theorem patchsum_matches_pixel_scan_witness :
    ((cornerStroke.cols : Int) ≤ 3 ∧ (cornerStroke.rows : Int) ≤ 3) ∧
    255 * cornerStroke.rows * cornerStroke.cols < 2 ^ 31 ∧
    patchsum (cv_integral (paddedCanvas (α := ℚ) ⟨3, 3⟩ cornerStroke).2)
        ((⟨0, 0, 2, 2⟩ : Rect).inter ⟨0, 0, (paddedCanvas (α := ℚ) ⟨3, 3⟩ cornerStroke).1.cols,
          (paddedCanvas (α := ℚ) ⟨3, 3⟩ cornerStroke).1.rows⟩)
      = inkMass cornerStroke ⟨0, 0, 2, 2⟩ :=
  ⟨⟨by decide, by decide⟩, by decide,
    ((patchsum_matches_pixel_scan ℚ ⟨3, 3⟩ cornerStroke ⟨0, 0, 2, 2⟩ (by decide)
      (by decide)).2 (by decide)).1⟩

/-! ### Feature size (C9) -/

theorem roundToDouble_nonneg (x : ℚ) (hx : 0 ≤ x) : 0 ≤ roundToDouble x :=
  roundBinary_nonneg 53 (-1022) x hx

theorem sqrtDouble_nonneg (x : ℚ) : 0 ≤ sqrtDouble x := by
  unfold sqrtDouble
  by_cases h0 : x ≤ 0
  · rw [if_pos h0]
  · rw [if_neg h0]
    simp only
    split_ifs
    · exact roundToDouble_nonneg _ (by positivity)
    · exact roundToDouble_nonneg _ (by positivity)

/-- The conversion to `int` of a value that is not negative is its integer part. -/
theorem truncToInt_toNat (x : ℚ) (hx : 0 ≤ x) : (truncToInt x).toNat = ⌊x⌋₊ := by
  unfold truncToInt
  rw [if_pos hx]
  rfl

/-- The product of line 329 is a double: for `feature_size = 0.29` and an image of area
2900 it is the double below 841, whose root is below 29, and `featureSize` is 28. -/
theorem featureSize_of_rounded_product :
    roundToDouble (((whiteStrip.cols * whiteStrip.rows : ℕ) : ℚ)
      * roundToDouble coarseParams.feature_size) < 841 ∧
    (galif_generator.ofParams Real.exp Real.cos Real.sin Real.pi
      coarseParams).featureSize whiteStrip = .ok (28, 28) := by
  refine ⟨by decide!, by decide!⟩

/-- C9 fails for the default configuration and a scaled image of 256 x 256 pixels:
`extract` computes `featureSize = 80` and `tileSize = 20`, and 80 is less than the
square root of `area * feature_size = 6553.6`. -/
theorem featureSize_below_sqrt :
    (galif_generator.create Real.exp Real.cos Real.sin Real.pi ({} : Params)).bind
        (fun g => g.featureSize whiteCanvas) = .ok (80, 20) ∧
    ((80 : ℕ) : ℝ) <
      Real.sqrt (((whiteCanvas.cols * whiteCanvas.rows : ℕ) : ℝ) * (((1 / 10 : ℚ)) : ℝ)) := by
  constructor
  · rw [create_ok _ _ _ _ _ (by decide!) (by decide!) rfl]
    show (galif_generator.ofParams Real.exp Real.cos Real.sin Real.pi
      ({} : Params)).featureSize whiteCanvas = .ok (80, 20)
    decide!
  · apply Real.lt_sqrt_of_sq_lt
    simp only [whiteCanvas]
    norm_num

/-- C9 (amended): for every scaled image, every `feature_size` that is not negative and
every `tiles >= 1`, with `d` the double that `std::sqrt(area * feature_size)` returns
(product and root each rounded to the nearest double) and as long as the area and
the integer part of `d` plus `tiles` stay below `2^31`, the `featureSize` computed in
`extract` is the smallest multiple of `tiles` that is not less than the integer part
of `d`, it is below `2^31`, and `tileSize * tiles = featureSize`. -/
theorem featureSize_rounds_double_sqrt (α : Type) [LinearOrderedField α]
    (g : galif_generator α) (image : Image)
    (hfs : 0 ≤ g._featureSize) (ht : 1 ≤ g._tiles)
    (harea : image.cols * image.rows < 2 ^ 31)
    (hrange : ⌊sqrtDouble (roundToDouble
      (((image.cols * image.rows : ℕ) : ℚ) * g._featureSize))⌋₊ + g._tiles < 2 ^ 31) :
    ∃ featureSize tileSize, g.featureSize image = .ok (featureSize, tileSize) ∧
      g._tiles ∣ featureSize ∧
      ⌊sqrtDouble (roundToDouble
        (((image.cols * image.rows : ℕ) : ℚ) * g._featureSize))⌋₊ ≤ featureSize ∧
      (∀ m : ℕ, g._tiles ∣ m →
        ⌊sqrtDouble (roundToDouble
          (((image.cols * image.rows : ℕ) : ℚ) * g._featureSize))⌋₊ ≤ m →
        featureSize ≤ m) ∧
      tileSize * g._tiles = featureSize ∧ featureSize < 2 ^ 31 ∧
      wrapInt32 ((image.cols * image.rows : ℕ) : Int) = ((image.cols * image.rows : ℕ) : Int) := by
  obtain ⟨fs, ts, hfeat⟩ := featureSize_ok g image hfs ht
  obtain ⟨-, -, hts, hdvd, hle, hmin⟩ := featureSize_spec g image fs ts hfeat
  rw [truncToInt_toNat _ (sqrtDouble_nonneg _)] at hle hmin
  refine ⟨fs, ts, hfeat, hdvd, hle, hmin, hts, ?_, ?_⟩
  · -- the multiple of `tiles` after the integer part is less than `tiles` away
    obtain ⟨q, hq⟩ := hdvd
    have hpos : 0 < g._tiles := ht
    by_contra hcon
    have hbig : ⌊sqrtDouble (roundToDouble
        (((image.cols * image.rows : ℕ) : ℚ) * g._featureSize))⌋₊ + g._tiles ≤ fs := by omega
    have hq1 : 1 ≤ q := by
      rcases Nat.eq_zero_or_pos q with h0 | h0
      · rw [h0, Nat.mul_zero] at hq; omega
      · exact h0
    have hprev := hmin (g._tiles * (q - 1)) ⟨q - 1, rfl⟩ (by
      have e : g._tiles * (q - 1) + g._tiles = fs := by
        rw [hq, ← Nat.mul_succ]
        congr 1
        omega
      omega)
    have e : g._tiles * (q - 1) + g._tiles = fs := by
      rw [hq, ← Nat.mul_succ]
      congr 1
      omega
    omega
  · apply wrapInt32_of_range
    · have : (0 : Int) ≤ ((image.cols * image.rows : ℕ) : Int) := Int.natCast_nonneg _
      omega
    · have : ((image.cols * image.rows : ℕ) : Int) < ((2 ^ 31 : ℕ) : Int) := by
        exact_mod_cast harea
      simpa using this

/-- Instance of C9 (amended): the default configuration and a scaled image of
256 x 256 pixels. -/
theorem featureSize_rounds_double_sqrt_witness :
    (0 ≤ (galif_generator.ofParams Real.exp Real.cos Real.sin Real.pi
      ({} : Params))._featureSize ∧
     1 ≤ (galif_generator.ofParams Real.exp Real.cos Real.sin Real.pi ({} : Params))._tiles ∧
     whiteCanvas.cols * whiteCanvas.rows < 2 ^ 31 ∧
     ⌊sqrtDouble (roundToDouble (((whiteCanvas.cols * whiteCanvas.rows : ℕ) : ℚ) *
        (galif_generator.ofParams Real.exp Real.cos Real.sin Real.pi
          ({} : Params))._featureSize))⌋₊ + 4 < 2 ^ 31) ∧
    ∃ featureSize tileSize,
      (galif_generator.ofParams Real.exp Real.cos Real.sin Real.pi
        ({} : Params)).featureSize whiteCanvas = .ok (featureSize, tileSize) ∧
      tileSize * 4 = featureSize :=
  ⟨⟨by decide!, by decide!, by decide!, by decide!⟩,
    (featureSize_rounds_double_sqrt ℝ
      (galif_generator.ofParams Real.exp Real.cos Real.sin Real.pi ({} : Params)) whiteCanvas
      (by decide!) (by decide!) (by decide!) (by decide!)).imp
        fun _ h => h.imp fun _ h => ⟨h.1, h.2.2.2.2.1⟩⟩

/-! ### Filter bank (C7) and scaling (C8) -/

/-- C7: for every configuration, the filter bank of a constructed generator holds
exactly `num_orients` filters, each has the size of the filter, and its entry at the
zero-frequency coordinate `(0, 0)` exists and is exactly zero. -/
theorem filter_bank_zero_dc (α : Type) [LinearOrderedField α] (exp cos sin : α → α)
    (M_PI : α) (params : Params) (g : galif_generator α)
    (hcreate : galif_generator.create exp cos sin M_PI params = .ok g) :
    g._gaborFilter.length = params.num_orients ∧
    ∀ filter ∈ g._gaborFilter,
      (filter.rows : Int) = g._filterSize.height ∧ (filter.cols : Int) = g._filterSize.width ∧
      0 < filter.rows ∧ 0 < filter.cols ∧
      (filter.val 0 0).re = 0 ∧ (filter.val 0 0).im = 0 := by
  obtain ⟨hg, hpos⟩ := create_spec exp cos sin M_PI params g hcreate
  subst hg
  constructor
  · simp [galif_generator.ofParams]
  · intro filter hmem
    simp only [galif_generator.ofParams, List.mem_map, List.mem_range] at hmem
    obtain ⟨i, hi, rfl⟩ := hmem
    have hps := hpos (by omega)
    obtain ⟨hr, hc⟩ := generate_gabor_filter_size exp cos sin M_PI
      (Mat.fill (paddedSizeOf params).toNat (paddedSizeOf params).toNat (⟨0, 0⟩ : Cplx α))
      ((roundToDouble params.peak_frequency : ℚ) : α)
      ((i : α) * M_PI / (params.num_orients : α))
      ((sigmaXOf params : ℚ) : α) ((sigmaYOf params : ℚ) : α)
    have hr' : (generate_gabor_filter exp cos sin M_PI
        (Mat.fill (paddedSizeOf params).toNat (paddedSizeOf params).toNat (⟨0, 0⟩ : Cplx α))
        ((roundToDouble params.peak_frequency : ℚ) : α)
        ((i : α) * M_PI / (params.num_orients : α))
        ((sigmaXOf params : ℚ) : α) ((sigmaYOf params : ℚ) : α)).rows
        = (paddedSizeOf params).toNat := hr
    have hc' : (generate_gabor_filter exp cos sin M_PI
        (Mat.fill (paddedSizeOf params).toNat (paddedSizeOf params).toNat (⟨0, 0⟩ : Cplx α))
        ((roundToDouble params.peak_frequency : ℚ) : α)
        ((i : α) * M_PI / (params.num_orients : α))
        ((sigmaXOf params : ℚ) : α) ((sigmaYOf params : ℚ) : α)).cols
        = (paddedSizeOf params).toNat := hc
    unfold orientedFilter
    rw [Mat.set_rows, Mat.set_cols, Mat.set_val, hr', hc']
    simp only [galif_generator.ofParams, and_self, if_true]
    refine ⟨by omega, by omega, by omega, by omega, trivial⟩

/-- Instance of C7: the default configuration. -/
theorem filter_bank_zero_dc_witness :
    galif_generator.create Real.exp Real.cos Real.sin Real.pi ({} : Params)
      = .ok (galif_generator.ofParams Real.exp Real.cos Real.sin Real.pi ({} : Params)) ∧
    (galif_generator.ofParams Real.exp Real.cos Real.sin Real.pi
      ({} : Params))._gaborFilter.length = 4 :=
  ⟨create_ok _ _ _ _ _ (by decide!) (by decide!) rfl,
    (filter_bank_zero_dc ℝ Real.exp Real.cos Real.sin Real.pi ({} : Params) _
      (create_ok _ _ _ _ _ (by decide!) (by decide!) rfl)).1⟩

/-- C8: for every configuration with `line_width >= 0` (and any `lambda`) and every input
image, the image that `scale` returns has its longer side equal to `image_width` and no
side larger than the filter size, so it passes `assertImageSize`. -/
theorem scaled_image_fits_filter (α : Type) [LinearOrderedField α] (exp cos sin : α → α)
    (M_PI : α) (params : Params) (g : galif_generator α)
    (resample : Image → Nat → Nat → Nat → Nat → Fin 256) (image scaled : Image) (factor : ℚ)
    (hcreate : galif_generator.create exp cos sin M_PI params = .ok g)
    (hlw : 0 ≤ params.line_width)
    (hscale : g.scale resample image = .ok (scaled, factor)) :
    max scaled.cols scaled.rows = params.image_width ∧
    (scaled.cols : Int) ≤ g._filterSize.width ∧ (scaled.cols : Int) ≤ g._filterSize.height ∧
    (scaled.rows : Int) ≤ g._filterSize.width ∧ (scaled.rows : Int) ≤ g._filterSize.height ∧
    g.assertImageSize scaled = .ok () := by
  obtain ⟨hg, -⟩ := create_spec exp cos sin M_PI params g hcreate
  obtain ⟨-, -, -, -, hmax⟩ := scale_spec g resample image scaled factor hscale
  obtain ⟨hW, -, -⟩ := create_range exp cos sin M_PI params g hcreate
  obtain ⟨hge, -⟩ := paddedSizeOf_ge params hlw hW
  subst hg
  simp only [galif_generator.ofParams] at hmax ⊢
  have h1 : scaled.cols ≤ params.image_width := by omega
  have h2 : scaled.rows ≤ params.image_width := by omega
  refine ⟨hmax, by omega, by omega, by omega, by omega, ?_⟩
  unfold galif_generator.assertImageSize
  rw [if_pos]
  constructor <;> simp only <;> omega

/-! ### Shape of the output (C5) -/

section shape

variable {α : Type} [LinearOrderedField α]

/-- The filter size of a constructed generator is a square. -/
theorem create_square (exp cos sin : α → α) (M_PI : α) (params : Params)
    (g : galif_generator α)
    (hcreate : galif_generator.create exp cos sin M_PI params = .ok g) :
    g._filterSize.width = g._filterSize.height ∧
    g._featureSize = roundToDouble params.feature_size ∧
    g._tiles = params.tiles ∧ g._normalizeHist = params.normalize_hist ∧
    g._numOrients = params.num_orients ∧ g._width = params.image_width := by
  obtain ⟨hg, -⟩ := create_spec exp cos sin M_PI params g hcreate
  subst hg
  exact ⟨rfl, rfl, rfl, rfl, rfl, rfl⟩

end shape

/-! ### The sampling loops copy response values

The loops of `extract` only copy entries of the response maps into the histogram, so
they commute with any map applied to the entries.  This is used to evaluate the loops
on concrete real-valued inputs by running them on rationals. -/

theorem forLoop_map {σ τ : Type} (f : σ → τ) (body : Int → σ → Except Failure σ)
    (body' : Int → τ → Except Failure τ) (stop step : Int)
    (hbody : ∀ i s, body' i (f s) = mapOutcome f (body i s)) :
    ∀ (fuel : Nat) (i : Int) (s : σ),
      forLoop body' stop step fuel i (f s) = mapOutcome f (forLoop body stop step fuel i s) := by
  intro fuel
  induction fuel with
  | zero =>
    intro i s
    unfold forLoop
    split_ifs <;> rfl
  | succ n ih =>
    intro i s
    unfold forLoop
    split_ifs
    · rw [hbody]
      cases body i s with
      | error e => rfl
      | ok s' => exact ih (i + step) s'
    · rfl

section transfer

variable {α β : Type} [LinearOrderedField α] [LinearOrderedField β]

theorem sampleAt_map (f : α → β) (tiles numOrients tileSize : Nat) (rect : Rect) (k : Nat)
    (response : Mat α) (y x : Int) (hist : List α) :
    sampleAt tiles numOrients tileSize rect k (response.map f) y x (hist.map f)
      = mapOutcome (List.map f) (sampleAt tiles numOrients tileSize rect k response y x hist) := by
  unfold sampleAt
  simp only [Mat.map, Mat.get]
  split_ifs
  all_goals first | rfl | simp only [mapOutcome, List.map_set]

theorem sampleMap_map (f : α → β) (tiles numOrients tileSize : Nat) (rect : Rect) (k : Nat)
    (response : Mat α) (hist : List α) :
    sampleMap tiles numOrients tileSize rect k (response.map f) (hist.map f)
      = mapOutcome (List.map f) (sampleMap tiles numOrients tileSize rect k response hist) := by
  unfold sampleMap
  apply forLoop_map (List.map f)
  intro y s
  apply forLoop_map (List.map f)
  intro x s'
  exact sampleAt_map f tiles numOrients tileSize rect k response y x s'

theorem sampleResponses_map (f : α → β) (tiles numOrients tileSize : Nat) (rect : Rect)
    (responses : List (Mat α)) :
    ∀ (k : Nat) (hist : List α),
      sampleResponses tiles numOrients tileSize rect k (responses.map (Mat.map f)) (hist.map f)
        = mapOutcome (List.map f)
            (sampleResponses tiles numOrients tileSize rect k responses hist) := by
  induction responses with
  | nil => intro k hist; rfl
  | cons r rest ih =>
    intro k hist
    simp only [List.map_cons, sampleResponses]
    rw [sampleMap_map]
    cases sampleMap tiles numOrients tileSize rect k r hist with
    | error e => rfl
    | ok h => exact ih (k + 1) h


/-- Evaluation of the sampled histogram for response maps that are the image under `f`
of other maps, from a run of the loops on those maps. -/
theorem sampledHistogram_map (f : α → β) (hf : f 0 = 0) (g : galif_generator β)
    (smoothed : Nat → Nat → Nat → α) (image : Image) (keypoint : ℚ × ℚ) (fs ts : Nat)
    (hfeat : g.featureSize image = .ok (fs, ts)) (hist : List α)
    (hrun : sampleResponses g._tiles g._numOrients ts
      ⟨(keypointRect fs keypoint).x + ts, (keypointRect fs keypoint).y + ts,
        (keypointRect fs keypoint).width, (keypointRect fs keypoint).height⟩ 0
      ((List.range g._numOrients).map fun k =>
        (⟨image.rows + 2 * ts, image.cols + 2 * ts, smoothed k⟩ : Mat α))
      (List.replicate (g._tiles * g._tiles * g._numOrients) 0) = .ok hist) :
    g.sampledHistogram (fun k y x => f (smoothed k y x)) image keypoint = hist.map f := by
  obtain ⟨h1, h2⟩ := featureSize_views g image fs ts hfeat
  have hcast := sampleResponses_map f g._tiles g._numOrients ts
    ⟨(keypointRect fs keypoint).x + ts, (keypointRect fs keypoint).y + ts,
      (keypointRect fs keypoint).width, (keypointRect fs keypoint).height⟩
    ((List.range g._numOrients).map fun k =>
      (⟨image.rows + 2 * ts, image.cols + 2 * ts, smoothed k⟩ : Mat α)) 0
    (List.replicate (g._tiles * g._tiles * g._numOrients) 0)
  rw [hrun] at hcast
  simp only [List.map_map, List.map_replicate, hf] at hcast
  simp only [galif_generator.sampledHistogram, galif_generator.supportRect, h1, h2,
    galif_generator.responsesOf]
  have hresp : ((List.range g._numOrients).map fun k =>
      (⟨image.rows + 2 * ts, image.cols + 2 * ts, fun y x => f (smoothed k y x)⟩ : Mat β))
      = (List.range g._numOrients).map (Mat.map f ∘ fun k =>
          (⟨image.rows + 2 * ts, image.cols + 2 * ts, smoothed k⟩ : Mat α)) := rfl
  rw [hresp, hcast]
  rfl

end transfer

/-! ### Normalization `lowe` (C1, C2) -/

/-- C1, evaluated: with normalization `lowe`, one tile and two orientations, a keypoint
whose sampled histogram is `[3, 1]` gets the descriptor `[3/4, 1/4]`, the histogram
divided by its L1 norm, while L1-normalizing, clipping at 0.2 and L1-normalizing again
gives `[1/2, 1/2]`. -/
theorem lowe_omits_clipping :
    (galif_generator.create Real.exp Real.cos Real.sin Real.pi loweParams).bind
        (fun g => g.extract Real.sqrt (fun k y x => ((twoBinResponses k y x : ℚ) : ℝ))
          cornerStroke [(1, 1)] [] [])
      = .ok ([[3 / 4, 1 / 4]], [0]) ∧
    loweBySpec [(3 : ℝ), 1] = [1 / 2, 1 / 2] := by
  constructor
  · rw [create_ok _ _ _ _ _ (by decide!) (by decide!) rfl]
    show (galif_generator.ofParams Real.exp Real.cos Real.sin Real.pi loweParams).extract
      Real.sqrt (fun k y x => ((twoBinResponses k y x : ℚ) : ℝ)) cornerStroke [(1, 1)] [] [] = _
    generalize hg : galif_generator.ofParams Real.exp Real.cos Real.sin Real.pi loweParams = g
    have hfeat : g.featureSize cornerStroke = .ok (2, 2) := by subst hg; decide!
    have hps : g.patchsumOf cornerStroke (1, 1) = 255 := by subst hg; decide!
    have hassert : g.assertImageSize cornerStroke = .ok () := by subst hg; decide!
    have hsq : g._filterSize.width = g._filterSize.height := by subst hg; rfl
    have hmode : g._normalizeHist = "lowe" := by subst hg; rfl
    have hsamp := sampledHistogram_map (fun q : ℚ => (q : ℝ)) (by norm_num) g
      twoBinResponses cornerStroke (1, 1) 2 2 hfeat [3, 1] (by subst hg; decide!)
    have hflag : g.emptyFlagOf cornerStroke (1, 1) = 0 := by
      unfold galif_generator.emptyFlagOf
      rw [hps]
      rfl
    have hnorm : cv_normalize_L1 [(3 : ℝ), 1] = [3 / 4, 1 / 4] := by
      norm_num [cv_normalize_L1, cv_norm_L1, DBL_EPSILON]
    have hdesc : g.descriptorOf Real.sqrt (fun k y x => ((twoBinResponses k y x : ℚ) : ℝ))
        cornerStroke (1, 1) = [3 / 4, 1 / 4] := by
      unfold galif_generator.descriptorOf galif_generator.describe
      rw [if_neg (by rw [hps]; decide), hsamp, hmode, normalizeHistogram_lowe]
      simp only [List.map_cons, List.map_nil]
      push_cast
      rw [hnorm]
    rw [extract_ok_of Real.sqrt g _ cornerStroke [(1, 1)] hsq hassert ⟨2, 2, hfeat⟩
      (fun k _ => Or.inr (Or.inr (Or.inl hmode)))]
    simp only [List.map_cons, List.map_nil, hflag, hdesc]
  · unfold loweBySpec
    simp only [List.map_cons, List.map_nil, List.sum_cons, List.sum_nil]
    norm_num
    rw [abs_of_pos (by norm_num : (0 : ℝ) < 1 / 5)]
    norm_num

/-- C2, refuted: with normalization `lowe`, one tile and six orientations, a keypoint
with a non-empty patch whose sampled histogram is `[1, 0, 0, 0, 0, 0]` gets that
histogram as descriptor, whose first entry 1 exceeds 0.2; clipping at 0.2 followed by
the second L1 normalization gives the same vector. -/
theorem lowe_entry_exceeds_clip :
    (galif_generator.create Real.exp Real.cos Real.sin Real.pi sixBinParams).bind
        (fun g => g.extract Real.sqrt (fun k y x => ((oneBinResponses k y x : ℚ) : ℝ))
          cornerStroke [(1, 1)] [] [])
      = .ok ([[1, 0, 0, 0, 0, 0]], [0]) ∧
    (2 / 10 : ℝ) < 1 ∧
    loweBySpec [(1 : ℝ), 0, 0, 0, 0, 0] = [1, 0, 0, 0, 0, 0] := by
  refine ⟨?_, by norm_num, ?_⟩
  · rw [create_ok _ _ _ _ _ (by decide!) (by decide!) rfl]
    show (galif_generator.ofParams Real.exp Real.cos Real.sin Real.pi sixBinParams).extract
      Real.sqrt (fun k y x => ((oneBinResponses k y x : ℚ) : ℝ)) cornerStroke [(1, 1)] [] [] = _
    generalize hg : galif_generator.ofParams Real.exp Real.cos Real.sin Real.pi sixBinParams = g
    have hfeat : g.featureSize cornerStroke = .ok (2, 2) := by subst hg; decide!
    have hps : g.patchsumOf cornerStroke (1, 1) = 255 := by subst hg; decide!
    have hassert : g.assertImageSize cornerStroke = .ok () := by subst hg; decide!
    have hsq : g._filterSize.width = g._filterSize.height := by subst hg; rfl
    have hmode : g._normalizeHist = "lowe" := by subst hg; rfl
    have hsamp := sampledHistogram_map (fun q : ℚ => (q : ℝ)) (by norm_num) g
      oneBinResponses cornerStroke (1, 1) 2 2 hfeat [1, 0, 0, 0, 0, 0] (by subst hg; decide!)
    have hflag : g.emptyFlagOf cornerStroke (1, 1) = 0 := by
      unfold galif_generator.emptyFlagOf
      rw [hps]
      rfl
    have hnorm : cv_normalize_L1 [(1 : ℝ), 0, 0, 0, 0, 0] = [1, 0, 0, 0, 0, 0] := by
      norm_num [cv_normalize_L1, cv_norm_L1, DBL_EPSILON]
    have hdesc : g.descriptorOf Real.sqrt (fun k y x => ((oneBinResponses k y x : ℚ) : ℝ))
        cornerStroke (1, 1) = [1, 0, 0, 0, 0, 0] := by
      unfold galif_generator.descriptorOf galif_generator.describe
      rw [if_neg (by rw [hps]; decide), hsamp, hmode, normalizeHistogram_lowe]
      simp only [List.map_cons, List.map_nil]
      push_cast
      rw [hnorm]
    rw [extract_ok_of Real.sqrt g _ cornerStroke [(1, 1)] hsq hassert ⟨2, 2, hfeat⟩
      (fun k _ => Or.inr (Or.inr (Or.inl hmode)))]
    simp only [List.map_cons, List.map_nil, hflag, hdesc]
  · unfold loweBySpec
    simp only [List.map_cons, List.map_nil, List.sum_cons, List.sum_nil]
    norm_num
    rw [abs_of_pos (by norm_num : (0 : ℝ) < 1 / 5)]
    norm_num

section lowe

variable {α : Type} [LinearOrderedField α]

/-- No entry of an L1-normalized vector exceeds 1. -/
theorem cv_normalize_L1_le_one (h : List α) : ∀ v ∈ cv_normalize_L1 h, v ≤ 1 := by
  intro v hv
  unfold cv_normalize_L1 at hv
  simp only [List.mem_map] at hv
  obtain ⟨x, hx, rfl⟩ := hv
  have hle : |x| ≤ cv_norm_L1 h := by
    unfold cv_norm_L1
    apply List.single_le_sum
    · intro y hy
      rw [List.mem_map] at hy
      obtain ⟨z, -, rfl⟩ := hy
      exact abs_nonneg z
    · exact List.mem_map.mpr ⟨x, hx, rfl⟩
  split_ifs with hnorm
  · have hpos : 0 < cv_norm_L1 h := lt_trans (by unfold DBL_EPSILON; positivity) hnorm
    rw [mul_one_div, div_le_one hpos]
    exact le_trans (le_abs_self x) hle
  · simp

end lowe

/-- C2, amended: with normalization `lowe`, for a constructed generator, every image and
every keypoint, no entry of a descriptor stored by `extract` exceeds 1; the call returns
when the image passes `assertImageSize`, `feature_size >= 0` and `tiles >= 1`. -/
theorem lowe_entries_at_most_one (α : Type) [LinearOrderedField α]
    (exp cos sin sqrt : α → α) (M_PI : α) (params : Params) (g : galif_generator α)
    (smoothed : Nat → Nat → Nat → α) (image : Image) (keypoints : List (ℚ × ℚ))
    (hcreate : galif_generator.create exp cos sin M_PI params = .ok g)
    (hlowe : params.normalize_hist = "lowe") :
    (∀ features emptyFeatures,
      g.extract sqrt smoothed image keypoints [] [] = .ok (features, emptyFeatures) →
        ∀ d ∈ features, ∀ v ∈ d, v ≤ 1) ∧
    (g.assertImageSize image = .ok () → 0 ≤ params.feature_size → 1 ≤ params.tiles →
      ∃ features emptyFeatures,
        g.extract sqrt smoothed image keypoints [] [] = .ok (features, emptyFeatures)) := by
  obtain ⟨hsq, hf, htl, hn, -, -⟩ := create_square exp cos sin M_PI params g hcreate
  have hmode : g._normalizeHist = "lowe" := by rw [hn, hlowe]
  constructor
  · intro features emptyFeatures hext d hd v hv
    obtain ⟨-, -, -, hfe, -, -⟩ :=
      extract_ok_spec sqrt g smoothed image keypoints hsq features emptyFeatures hext
    rw [hfe, List.mem_map] at hd
    obtain ⟨k, -, rfl⟩ := hd
    unfold galif_generator.descriptorOf galif_generator.describe at hv
    by_cases hz : g.patchsumOf image k = 0
    · rw [if_pos hz] at hv
      simp only [List.mem_replicate] at hv
      rw [hv.2]
      exact zero_le_one
    · rw [if_neg hz, hmode, normalizeHistogram_lowe] at hv
      exact cv_normalize_L1_le_one _ v hv
  · intro hassert hfs ht
    exact ⟨_, _, extract_ok_of sqrt g smoothed image keypoints hsq hassert
      (featureSize_ok g image (by rw [hf]; exact roundBinary_nonneg _ _ _ hfs) (by rw [htl]; exact ht))
      (fun k _ => Or.inr (Or.inr (Or.inl hmode)))⟩

/-- Instance of C2, amended: the configuration `sixBinParams` and the image
`cornerStroke`. -/
theorem lowe_entries_at_most_one_witness :
    (galif_generator.create Real.exp Real.cos Real.sin Real.pi sixBinParams
        = .ok (galif_generator.ofParams Real.exp Real.cos Real.sin Real.pi sixBinParams) ∧
      sixBinParams.normalize_hist = "lowe") ∧
    ∃ features emptyFeatures,
      (galif_generator.ofParams Real.exp Real.cos Real.sin Real.pi sixBinParams).extract
        Real.sqrt (fun k y x => ((oneBinResponses k y x : ℚ) : ℝ)) cornerStroke [(1, 1)] [] []
        = .ok (features, emptyFeatures) :=
  ⟨⟨create_ok _ _ _ _ _ (by decide!) (by decide!) rfl, rfl⟩,
    (lowe_entries_at_most_one ℝ Real.exp Real.cos Real.sin Real.sqrt Real.pi sixBinParams _
      (fun k y x => ((oneBinResponses k y x : ℚ) : ℝ)) cornerStroke [(1, 1)]
      (create_ok _ _ _ _ _ (by decide!) (by decide!) rfl) rfl).2
      (by decide!) (by decide!) (by decide!)⟩

/-! ### Normalization `l2` (C3) -/

theorem foldl_add_sq {α : Type} [LinearOrderedField α] (h : List α) (a : α) :
    h.foldl (fun sum x => sum + x * x) a = a + (h.map fun x => x * x).sum := by
  induction h generalizing a with
  | nil => simp
  | cons x rest ih =>
    simp only [List.foldl_cons, List.map_cons, List.sum_cons]
    rw [ih]
    ring

/-- Result of the `l2` branch in terms of the Euclidean norm. -/
theorem normalizeHistogram_l2_norm (h : List ℝ) :
    normalizeHistogram Real.sqrt "l2" h
      = .ok (h.map fun x => x / (euclideanNorm Real.sqrt h + FLT_EPSILON)) := by
  rw [normalizeHistogram_l2, foldl_add_sq, zero_add]
  rfl

/-- Euclidean norm of a vector divided by a positive number. -/
theorem euclideanNorm_div (h : List ℝ) (c : ℝ) (hc : 0 < c) :
    euclideanNorm Real.sqrt (h.map fun x => x / c) = euclideanNorm Real.sqrt h / c := by
  unfold euclideanNorm
  have hsum : ((h.map fun x => x / c).map fun x => x * x).sum
      = (h.map fun x => x * x).sum / c ^ 2 := by
    induction h with
    | nil => simp
    | cons x rest ih =>
      simp only [List.map_cons, List.sum_cons] at ih ⊢
      rw [ih]
      field_simp
      ring
  rw [hsum, Real.sqrt_div' _ (by positivity), Real.sqrt_sq (le_of_lt hc)]

theorem FLT_EPSILON_pos : (0 : ℝ) < FLT_EPSILON := by
  unfold FLT_EPSILON
  positivity

/-- Distance from 1 of the Euclidean norm of an `l2` descriptor. -/
theorem l2_norm_distance (h : List ℝ) :
    euclideanNorm Real.sqrt (h.map fun x => x / (euclideanNorm Real.sqrt h + FLT_EPSILON))
        = euclideanNorm Real.sqrt h / (euclideanNorm Real.sqrt h + FLT_EPSILON) ∧
    (|euclideanNorm Real.sqrt (h.map fun x => x / (euclideanNorm Real.sqrt h + FLT_EPSILON)) - 1|
        ≤ FLT_EPSILON ↔ 1 - FLT_EPSILON ≤ euclideanNorm Real.sqrt h) := by
  have hn : 0 ≤ euclideanNorm Real.sqrt h := Real.sqrt_nonneg _
  have he := FLT_EPSILON_pos
  have hc : 0 < euclideanNorm Real.sqrt h + FLT_EPSILON := by linarith
  have hdiv := euclideanNorm_div h _ hc
  refine ⟨hdiv, ?_⟩
  rw [hdiv]
  have hdist : euclideanNorm Real.sqrt h / (euclideanNorm Real.sqrt h + FLT_EPSILON) - 1
      = -(FLT_EPSILON / (euclideanNorm Real.sqrt h + FLT_EPSILON)) := by
    field_simp
  rw [hdist, abs_neg, abs_of_pos (div_pos he hc), div_le_iff₀ hc]
  constructor
  · intro hle
    have : FLT_EPSILON * 1 ≤ FLT_EPSILON * (euclideanNorm Real.sqrt h + FLT_EPSILON) := by
      linarith
    have := le_of_mul_le_mul_left this he
    linarith
  · intro hle
    have : FLT_EPSILON * 1 ≤ FLT_EPSILON * (euclideanNorm Real.sqrt h + FLT_EPSILON) :=
      mul_le_mul_of_nonneg_left (by linarith) (le_of_lt he)
    linarith

/-- C3, refuted: with normalization `l2`, one tile and one orientation, a keypoint with
a non-empty patch whose sampled histogram is `[1/2]` gets the descriptor
`[4194304/4194305]`, and the distance of its Euclidean norm from 1 is larger than the
machine epsilon `2^-23`. -/
theorem l2_norm_away_from_one :
    (galif_generator.create Real.exp Real.cos Real.sin Real.pi oneBinParams).bind
        (fun g => g.extract Real.sqrt (fun k y x => ((halfResponses k y x : ℚ) : ℝ))
          cornerStroke [(1, 1)] [] [])
      = .ok ([[4194304 / 4194305]], [0]) ∧
    (FLT_EPSILON : ℝ) < |euclideanNorm Real.sqrt [4194304 / 4194305] - 1| := by
  have hsqrt : Real.sqrt ((1 / 2 : ℝ) * (1 / 2)) = 1 / 2 :=
    Real.sqrt_mul_self (by norm_num)
  constructor
  · rw [create_ok _ _ _ _ _ (by decide!) (by decide!) rfl]
    show (galif_generator.ofParams Real.exp Real.cos Real.sin Real.pi oneBinParams).extract
      Real.sqrt (fun k y x => ((halfResponses k y x : ℚ) : ℝ)) cornerStroke [(1, 1)] [] [] = _
    generalize hg : galif_generator.ofParams Real.exp Real.cos Real.sin Real.pi oneBinParams = g
    have hfeat : g.featureSize cornerStroke = .ok (2, 2) := by subst hg; decide!
    have hps : g.patchsumOf cornerStroke (1, 1) = 255 := by subst hg; decide!
    have hassert : g.assertImageSize cornerStroke = .ok () := by subst hg; decide!
    have hsq : g._filterSize.width = g._filterSize.height := by subst hg; rfl
    have hmode : g._normalizeHist = "l2" := by subst hg; rfl
    have hsamp := sampledHistogram_map (fun q : ℚ => (q : ℝ)) (by norm_num) g
      halfResponses cornerStroke (1, 1) 2 2 hfeat [1 / 2] (by subst hg; decide!)
    have hflag : g.emptyFlagOf cornerStroke (1, 1) = 0 := by
      unfold galif_generator.emptyFlagOf
      rw [hps]
      rfl
    have hdesc : g.descriptorOf Real.sqrt (fun k y x => ((halfResponses k y x : ℚ) : ℝ))
        cornerStroke (1, 1) = [4194304 / 4194305] := by
      unfold galif_generator.descriptorOf galif_generator.describe
      rw [if_neg (by rw [hps]; decide), hsamp, hmode, normalizeHistogram_l2]
      simp only [List.map_cons, List.map_nil, List.foldl_cons, List.foldl_nil]
      push_cast
      rw [zero_add, hsqrt]
      norm_num [FLT_EPSILON]
    rw [extract_ok_of Real.sqrt g _ cornerStroke [(1, 1)] hsq hassert ⟨2, 2, hfeat⟩
      (fun k _ => Or.inr (Or.inl hmode))]
    simp only [List.map_cons, List.map_nil, hflag, hdesc]
  · have hn : euclideanNorm Real.sqrt [(4194304 / 4194305 : ℝ)] = 4194304 / 4194305 := by
      unfold euclideanNorm
      simp only [List.map_cons, List.map_nil, List.sum_cons, List.sum_nil, add_zero]
      exact Real.sqrt_mul_self (by norm_num)
    rw [hn]
    norm_num [FLT_EPSILON, abs_of_neg]

/-- C3, amended: with normalization `l2`, for a constructed generator, every image and
every keypoint whose patch is not empty (the sum of `255 - intensity` over its region
is not zero as a 32-bit value), with sampled histogram `h`, the descriptor stored by
`extract` is `h / (||h|| + eps)` with `eps` the single-precision machine epsilon; its
Euclidean norm is `||h|| / (||h|| + eps)`, and it is within `eps` of 1 if and only if
`||h|| >= 1 - eps` (over exact real arithmetic); the call returns when the image passes
`assertImageSize`, `feature_size >= 0` and `tiles >= 1`. -/
theorem l2_descriptor_norm (exp cos sin : ℝ → ℝ) (M_PI : ℝ) (params : Params)
    (g : galif_generator ℝ) (smoothed : Nat → Nat → Nat → ℝ) (image : Image)
    (keypoints : List (ℚ × ℚ))
    (hcreate : galif_generator.create exp cos sin M_PI params = .ok g)
    (hl2 : params.normalize_hist = "l2") :
    (∀ features emptyFeatures,
      g.extract Real.sqrt smoothed image keypoints [] [] = .ok (features, emptyFeatures) →
        ∀ (i : Nat) (hi : i < keypoints.length),
          wrapInt32 (inkMass image (keypointRect (g.featureSizePx image) keypoints[i])) ≠ 0 →
          ∃ d, features[i]? = some d ∧
            d = (g.sampledHistogram smoothed image keypoints[i]).map (fun x =>
              x / (euclideanNorm Real.sqrt (g.sampledHistogram smoothed image keypoints[i])
                + FLT_EPSILON)) ∧
            euclideanNorm Real.sqrt d
              = euclideanNorm Real.sqrt (g.sampledHistogram smoothed image keypoints[i])
                / (euclideanNorm Real.sqrt (g.sampledHistogram smoothed image keypoints[i])
                  + FLT_EPSILON) ∧
            (|euclideanNorm Real.sqrt d - 1| ≤ FLT_EPSILON ↔
              1 - FLT_EPSILON
                ≤ euclideanNorm Real.sqrt (g.sampledHistogram smoothed image keypoints[i]))) ∧
    (g.assertImageSize image = .ok () → 0 ≤ params.feature_size → 1 ≤ params.tiles →
      ∃ features emptyFeatures,
        g.extract Real.sqrt smoothed image keypoints [] [] = .ok (features, emptyFeatures)) := by
  obtain ⟨hsq, hf, htl, hn, -, -⟩ := create_square exp cos sin M_PI params g hcreate
  have hmode : g._normalizeHist = "l2" := by rw [hn, hl2]
  constructor
  · intro features emptyFeatures hext i hi hink
    obtain ⟨hw, hh, -, hfe, -, -⟩ :=
      extract_ok_spec Real.sqrt g smoothed image keypoints hsq features emptyFeatures hext
    have hps : g.patchsumOf image keypoints[i] ≠ 0 := by
      rw [patchsumOf_eq_inkMass g image _ hw hh]
      exact hink
    have hdesc : g.descriptorOf Real.sqrt smoothed image keypoints[i]
        = (g.sampledHistogram smoothed image keypoints[i]).map (fun x =>
            x / (euclideanNorm Real.sqrt (g.sampledHistogram smoothed image keypoints[i])
              + FLT_EPSILON)) := by
      unfold galif_generator.descriptorOf galif_generator.describe
      rw [if_neg hps, hmode, normalizeHistogram_l2_norm]
    refine ⟨_, ?_, hdesc, ?_⟩
    · rw [hfe, List.getElem?_map, List.getElem?_eq_getElem hi]
      rfl
    · rw [hdesc]
      exact l2_norm_distance _
  · intro hassert hfs ht
    exact ⟨_, _, extract_ok_of Real.sqrt g smoothed image keypoints hsq hassert
      (featureSize_ok g image (by rw [hf]; exact roundBinary_nonneg _ _ _ hfs) (by rw [htl]; exact ht))
      (fun k _ => Or.inr (Or.inl hmode))⟩

/-- Instance of C3, amended: the configuration `oneBinParams` and the image
`cornerStroke`. -/
theorem l2_descriptor_norm_witness :
    (galif_generator.create Real.exp Real.cos Real.sin Real.pi oneBinParams
        = .ok (galif_generator.ofParams Real.exp Real.cos Real.sin Real.pi oneBinParams) ∧
      oneBinParams.normalize_hist = "l2") ∧
    ∃ features emptyFeatures,
      (galif_generator.ofParams Real.exp Real.cos Real.sin Real.pi oneBinParams).extract
        Real.sqrt (fun k y x => ((halfResponses k y x : ℚ) : ℝ)) cornerStroke [(1, 1)] [] []
        = .ok (features, emptyFeatures) :=
  ⟨⟨create_ok _ _ _ _ _ (by decide!) (by decide!) rfl, rfl⟩,
    (l2_descriptor_norm Real.exp Real.cos Real.sin Real.pi oneBinParams _
      (fun k y x => ((halfResponses k y x : ℚ) : ℝ)) cornerStroke [(1, 1)]
      (create_ok _ _ _ _ _ (by decide!) (by decide!) rfl) rfl).2
      (by decide!) (by decide!) (by decide!)⟩

/-! ### Unsupported normalization (C6) and instances of C5, C8 -/

/-- A call of `extract` with an unsupported normalization returns only if every patch
is empty. -/
theorem extract_unsupported_only_empty {α : Type} [LinearOrderedField α] (sqrt : α → α)
    (g : galif_generator α) (smoothed : Nat → Nat → Nat → α) (image : Image)
    (keypoints : List (ℚ × ℚ)) (hsquare : g._filterSize.width = g._filterSize.height)
    (hmode : ¬ supportedNormalization g._normalizeHist)
    (features : List (List α)) (emptyFeatures : List Nat)
    (h : g.extract sqrt smoothed image keypoints [] [] = .ok (features, emptyFeatures)) :
    ∀ k ∈ keypoints, g.patchsumOf image k = 0 := by
  obtain ⟨-, -, -, -, -, hall⟩ :=
    extract_ok_spec sqrt g smoothed image keypoints hsquare features emptyFeatures h
  intro k hk
  rcases (describe_ok_iff sqrt g smoothed image k).mp (hall k hk) with h0 | h1
  · exact h0
  · exact absurd h1 hmode

/-- With an unsupported normalization name, `extract` throws the `runtime_error` as soon
as the keypoint list holds a keypoint with a non-empty patch. -/
theorem extract_unsupported_throws {α : Type} [LinearOrderedField α] (sqrt : α → α)
    (g : galif_generator α) (smoothed : Nat → Nat → Nat → α) (image : Image)
    (keypoints : List (ℚ × ℚ)) (hsquare : g._filterSize.width = g._filterSize.height)
    (hassert : g.assertImageSize image = .ok ())
    (hfeat : ∃ fs ts, g.featureSize image = .ok (fs, ts))
    (hmode : ¬ supportedNormalization g._normalizeHist)
    (hink : ∃ k ∈ keypoints, g.patchsumOf image k ≠ 0) :
    ∃ what, g.extract sqrt smoothed image keypoints [] [] = .error (.runtime_error what) := by
  obtain ⟨fs, ts, hfeat⟩ := hfeat
  rw [extract_eq sqrt g smoothed image keypoints hsquare, hassert, hfeat]
  simp only
  induction keypoints with
  | nil =>
    obtain ⟨k, hk, -⟩ := hink
    exact absurd hk (List.not_mem_nil k)
  | cons k rest ih =>
    unfold galif_generator.describeAll
    by_cases hz : g.patchsumOf image k = 0
    · have hd : g.describe sqrt smoothed image k
          = .ok (List.replicate (g._tiles * g._tiles * g._numOrients) 0) := by
        unfold galif_generator.describe
        rw [if_pos hz]
      have hrest : ∃ k' ∈ rest, g.patchsumOf image k' ≠ 0 := by
        obtain ⟨k', hk', hne⟩ := hink
        rcases List.mem_cons.mp hk' with rfl | hmem
        · exact absurd hz hne
        · exact ⟨k', hmem, hne⟩
      obtain ⟨what, hwhat⟩ := ih hrest
      refine ⟨what, ?_⟩
      rw [hd]
      cases hall : g.describeAll sqrt smoothed image rest with
      | error e =>
        rw [hall] at hwhat
        simp only [consOutcome]
        exact hwhat
      | ok ds =>
        rw [hall] at hwhat
        cases hwhat
    · obtain ⟨what, hwhat⟩ := normalizeHistogram_unsupported sqrt g._normalizeHist
        (g.sampledHistogram smoothed image k) hmode
      have hd : g.describe sqrt smoothed image k = .error (.runtime_error what) := by
        unfold galif_generator.describe
        rw [if_neg hz, hwhat]
      refine ⟨what, ?_⟩
      rw [hd]
      rfl

/-- On an all-white image `extract` returns, whatever the normalization name is: every
keypoint gets the all-zero descriptor and the empty flag 1. -/
theorem extract_all_white {α : Type} [LinearOrderedField α] (sqrt : α → α)
    (g : galif_generator α) (smoothed : Nat → Nat → Nat → α) (image : Image)
    (keypoints : List (ℚ × ℚ)) (hsquare : g._filterSize.width = g._filterSize.height)
    (hassert : g.assertImageSize image = .ok ())
    (hfeat : ∃ fs ts, g.featureSize image = .ok (fs, ts))
    (hwhite : ∀ r c : Nat, r < image.rows → c < image.cols → image.val r c = 255) :
    g.extract sqrt smoothed image keypoints [] []
      = .ok (keypoints.map (fun _ => List.replicate (g._tiles * g._tiles * g._numOrients) 0),
             keypoints.map (fun _ => 1)) := by
  have hfit : (image.cols : Int) ≤ g._filterSize.height ∧
      (image.rows : Int) ≤ g._filterSize.width := by
    unfold galif_generator.assertImageSize at hassert
    by_contra hcon
    rw [if_neg hcon] at hassert
    cases hassert
  have hps : ∀ k, g.patchsumOf image k = 0 := by
    intro k
    rw [patchsumOf_eq_inkMass g image k (by omega) (by omega),
      (inkMass_eq_zero_iff image _).mpr (fun r c hr hc _ _ _ _ => hwhite r c hr hc)]
    exact wrapInt32_zero
  rw [extract_ok_of sqrt g smoothed image keypoints hsquare hassert hfeat
    (fun k _ => Or.inl (hps k))]
  have hdesc : g.descriptorOf sqrt smoothed image
      = fun _ => List.replicate (g._tiles * g._tiles * g._numOrients) 0 := by
    funext k
    unfold galif_generator.descriptorOf galif_generator.describe
    rw [if_pos (hps k)]
  have hflag : g.emptyFlagOf image = fun _ => 1 := by
    funext k
    unfold galif_generator.emptyFlagOf
    rw [if_pos (hps k)]
  rw [hdesc, hflag]

/-- C6, evaluated: for the default configuration with the unsupported normalization
name `l1`, the constructor returns a generator, and `extract` on an all-white image of
256 x 256 pixels returns normally, for the keypoint `(128, 128)` (an all-zero descriptor
flagged empty) as well as for an empty keypoint list, without reporting the
unsupported name. -/
theorem unsupported_normalization_unreported :
    ¬ supportedNormalization typoParams.normalize_hist ∧
    (galif_generator.create Real.exp Real.cos Real.sin Real.pi typoParams).bind
        (fun g => g.extract Real.sqrt (fun _ _ _ => 0) whiteCanvas [(128, 128)] [] [])
      = .ok ([List.replicate (4 * 4 * 4) 0], [1]) ∧
    (galif_generator.create Real.exp Real.cos Real.sin Real.pi typoParams).bind
        (fun g => g.extract Real.sqrt (fun _ _ _ => 0) whiteCanvas [] [] [])
      = .ok ([], []) := by
  have hfeat : (galif_generator.ofParams Real.exp Real.cos Real.sin Real.pi
      typoParams).featureSize whiteCanvas = .ok (80, 20) := by
    decide!
  have hassert : (galif_generator.ofParams Real.exp Real.cos Real.sin Real.pi
      typoParams).assertImageSize whiteCanvas = .ok () := by decide!
  refine ⟨by unfold supportedNormalization; decide, ?_, ?_⟩
  · rw [create_ok _ _ _ _ _ (by decide!) (by decide!) rfl]
    exact extract_all_white Real.sqrt _ _ whiteCanvas [(128, 128)] rfl hassert
      ⟨80, 20, hfeat⟩ (fun _ _ _ _ => rfl)
  · rw [create_ok _ _ _ _ _ (by decide!) (by decide!) rfl]
    exact extract_all_white Real.sqrt _ _ whiteCanvas [] rfl hassert
      ⟨80, 20, hfeat⟩ (fun _ _ _ _ => rfl)

/-- Scaling of the input image of 640 x 480 pixels under the default configuration. -/
theorem scale_whiteInput :
    (galif_generator.ofParams Real.exp Real.cos Real.sin Real.pi ({} : Params)).scale
        constantResample whiteInput
      = .ok (⟨192, 256, constantResample whiteInput 192 256⟩, 2 / 5) := by
  have h1 : cvRound ((640 : ℚ) * (256 / 640)) = 256 := by decide!
  have h2 : cvRound ((480 : ℚ) * (256 / 640)) = 192 := by decide!
  simp [galif_generator.scale, cv_resize, galif_generator.ofParams, whiteInput, h1, h2]
  norm_num

/-- Instance of C8: the default configuration and an input image of 640 x 480 pixels,
which `scale` turns into an image of 256 x 192 pixels. -/
theorem scaled_image_fits_filter_witness :
    (galif_generator.create Real.exp Real.cos Real.sin Real.pi ({} : Params)
        = .ok (galif_generator.ofParams Real.exp Real.cos Real.sin Real.pi ({} : Params)) ∧
      0 ≤ ({} : Params).line_width ∧
      (galif_generator.ofParams Real.exp Real.cos Real.sin Real.pi ({} : Params)).scale
          constantResample whiteInput
        = .ok (⟨192, 256, constantResample whiteInput 192 256⟩, 2 / 5)) ∧
    max (256 : Nat) 192 = ({} : Params).image_width :=
  ⟨⟨create_ok _ _ _ _ _ (by decide!) (by decide!) rfl, by decide!, scale_whiteInput⟩,
    (scaled_image_fits_filter ℝ Real.exp Real.cos Real.sin Real.pi ({} : Params) _
      constantResample whiteInput ⟨192, 256, constantResample whiteInput 192 256⟩ (2 / 5)
      (create_ok _ _ _ _ _ (by decide!) (by decide!) rfl) (by decide!) scale_whiteInput).1⟩

/-! ### The padded canvas (C13) -/

/-- C13: for a constructed generator and every image that passes `assertImageSize` (no
side larger than the filter size), the canvas `src` built in `extract` is square with
the filter size as its side, its entry `(r, c)` is `intensity(r, c) / 255` with
imaginary part zero for every pixel `(r, c)` of the image, and every other entry is
the white value `1` with imaginary part zero. -/
theorem padded_canvas_holds_image (α : Type) [LinearOrderedField α] (exp cos sin : α → α)
    (M_PI : α) (params : Params) (g : galif_generator α) (image : Image)
    (hcreate : galif_generator.create exp cos sin M_PI params = .ok g)
    (hfit : g.assertImageSize image = .ok ()) :
    g._filterSize.width = g._filterSize.height ∧
    ((paddedCanvas (α := α) g._filterSize image).1.rows : Int) = g._filterSize.height ∧
    ((paddedCanvas (α := α) g._filterSize image).1.cols : Int) = g._filterSize.width ∧
    (∀ r c : Nat, r < image.rows → c < image.cols →
      (r : Int) < g._filterSize.height ∧ (c : Int) < g._filterSize.width ∧
      (paddedCanvas (α := α) g._filterSize image).1.val r c
        = ⟨((image.val r c).val : α) / 255, 0⟩) ∧
    (∀ r c : Nat, ¬ (r < image.rows ∧ c < image.cols) →
      (paddedCanvas (α := α) g._filterSize image).1.val r c = ⟨1, 0⟩) := by
  obtain ⟨hg, -⟩ := create_spec exp cos sin M_PI params g hcreate
  have hsq : g._filterSize.width = g._filterSize.height := by
    subst hg; rfl
  have hfit' : (image.cols : Int) ≤ g._filterSize.height ∧
      (image.rows : Int) ≤ g._filterSize.width := by
    unfold galif_generator.assertImageSize at hfit
    by_contra hcon
    rw [if_neg hcon] at hfit
    cases hfit
  obtain ⟨hr, hc, -, -⟩ := paddedCanvas_size (α := α) g._filterSize image
  refine ⟨hsq, ?_, ?_, ?_, ?_⟩
  · rw [hr]; omega
  · rw [hc]; omega
  · intro r c hr' hc'
    refine ⟨by omega, by omega, ?_⟩
    rw [paddedCanvas_src_val, if_pos ⟨hr', hc'⟩, mul_one_div]
  · intro r c hout
    rw [paddedCanvas_src_val, if_neg hout]

/-- Instance of C13: the default configuration and the 2 x 2 image `cornerStroke`. -/
theorem padded_canvas_holds_image_witness :
    galif_generator.create Real.exp Real.cos Real.sin Real.pi ({} : Params)
      = .ok (galif_generator.ofParams Real.exp Real.cos Real.sin Real.pi ({} : Params)) ∧
    (galif_generator.ofParams Real.exp Real.cos Real.sin Real.pi
      ({} : Params)).assertImageSize cornerStroke = .ok () ∧
    (paddedCanvas (α := ℝ) (galif_generator.ofParams Real.exp Real.cos Real.sin Real.pi
      ({} : Params))._filterSize cornerStroke).1.val 2 0 = ⟨1, 0⟩ := by
  have hfit : (galif_generator.ofParams Real.exp Real.cos Real.sin Real.pi
      ({} : Params)).assertImageSize cornerStroke = .ok () := by
    have h := (paddedSizeOf_ge ({} : Params) (by decide!) (by decide!)).1
    unfold galif_generator.assertImageSize
    rw [if_pos]
    simp only [galif_generator.ofParams, cornerStroke]
    have h' : ((256 : Nat) : Int) ≤ paddedSizeOf ({} : Params) := h
    constructor <;> omega
  exact ⟨create_ok _ _ _ _ _ (by decide!) (by decide!) rfl, hfit,
    (padded_canvas_holds_image ℝ Real.exp Real.cos Real.sin Real.pi ({} : Params) _
      cornerStroke (create_ok _ _ _ _ _ (by decide!) (by decide!) rfl) hfit).2.2.2.2 2 0
      (by simp [cornerStroke])⟩

/-! ### Sizes returned by `getOptimalDFTSize` -/

theorem stripFactor_factor (p : Nat) : ∀ fuel n : Nat, ∃ a, n = p ^ a * stripFactor p fuel n := by
  intro fuel
  induction fuel with
  | zero => intro n; exact ⟨0, by simp [stripFactor]⟩
  | succ k ih =>
    intro n
    unfold stripFactor
    split_ifs with h
    · obtain ⟨a, ha⟩ := ih (n / p)
      refine ⟨a + 1, ?_⟩
      have hdiv : n = p * (n / p) := (Nat.mul_div_cancel' (Nat.dvd_of_mod_eq_zero h.1)).symm
      calc n = p * (n / p) := hdiv
        _ = p * (p ^ a * stripFactor p k (n / p)) := by rw [← ha]
        _ = p ^ (a + 1) * stripFactor p k (n / p) := by ring
    · exact ⟨0, by simp⟩

theorem stripFactor_pow_mul (p : Nat) (hp : 1 < p) (m : Nat) (hm : 0 < m) (hpm : ¬ p ∣ m) :
    ∀ a fuel : Nat, a ≤ fuel → stripFactor p fuel (p ^ a * m) = m := by
  intro a
  induction a with
  | zero =>
    intro fuel _
    cases fuel with
    | zero => simp [stripFactor]
    | succ k =>
      unfold stripFactor
      rw [if_neg]
      · simp
      · rintro ⟨h, -⟩
        apply hpm
        simpa using Nat.dvd_of_mod_eq_zero h
  | succ a ih =>
    intro fuel hfuel
    cases fuel with
    | zero => omega
    | succ k =>
      have hpos : 0 < p ^ (a + 1) * m := Nat.mul_pos (pow_pos (by omega) _) hm
      have hmul : p ^ (a + 1) * m = p * (p ^ a * m) := by ring
      unfold stripFactor
      rw [if_pos]
      · rw [hmul, Nat.mul_div_cancel_left _ (by omega)]
        exact ih k (by omega)
      · refine ⟨?_, by omega⟩
        rw [hmul]
        exact Nat.mul_mod_right _ _

theorem isOptimalDFTSize_iff (n : Nat) : isOptimalDFTSize n = true ↔ transformEfficient n := by
  unfold isOptimalDFTSize transformEfficient
  rw [decide_eq_true_iff]
  constructor
  · intro h
    obtain ⟨a, ha⟩ := stripFactor_factor 2 n n
    obtain ⟨b, hb⟩ := stripFactor_factor 3 n (stripFactor 2 n n)
    obtain ⟨c, hc⟩ := stripFactor_factor 5 n (stripFactor 3 n (stripFactor 2 n n))
    rw [h] at hc
    rw [hc] at hb
    rw [hb] at ha
    exact ⟨a, b, c, by rw [ha]; ring⟩
  · rintro ⟨a, b, c, hn⟩
    have h2 : ¬ 2 ∣ 3 ^ b * 5 ^ c := by
      intro hdvd
      rcases (Nat.Prime.dvd_mul Nat.prime_two).mp hdvd with h | h
      · have := Nat.Prime.dvd_of_dvd_pow Nat.prime_two h; omega
      · have := Nat.Prime.dvd_of_dvd_pow Nat.prime_two h; omega
    have h3 : ¬ 3 ∣ 5 ^ c * 1 := by
      intro hdvd
      rw [mul_one] at hdvd
      have := Nat.Prime.dvd_of_dvd_pow Nat.prime_three hdvd; omega
    have h5 : ¬ 5 ∣ 1 := by omega
    have p2 : 0 < 2 ^ a := pow_pos (by omega) _
    have p3 : 0 < 3 ^ b := pow_pos (by omega) _
    have p5 : 0 < 5 ^ c := pow_pos (by omega) _
    have q35 : 0 < 3 ^ b * 5 ^ c := Nat.mul_pos p3 p5
    have ha : a ≤ n := by
      have h1 : a < 2 ^ a := Nat.lt_two_pow a
      have h2 : 2 ^ a ≤ n := by
        rw [hn, mul_assoc]; exact Nat.le_mul_of_pos_right _ q35
      omega
    have hb : b ≤ n := by
      have h1 : b < 3 ^ b := Nat.lt_pow_self (by omega) b
      have h2 : 3 ^ b ≤ n := by
        rw [hn, mul_comm (2 ^ a), mul_assoc]
        exact Nat.le_mul_of_pos_right _ (Nat.mul_pos p2 p5)
      omega
    have hc : c ≤ n := by
      have h1 : c < 5 ^ c := Nat.lt_pow_self (by omega) c
      have h2 : 5 ^ c ≤ n := by
        rw [hn]; exact Nat.le_mul_of_pos_left _ (Nat.mul_pos p2 p3)
      omega
    have e2 : stripFactor 2 n n = 3 ^ b * 5 ^ c := by
      have := stripFactor_pow_mul 2 (by omega) (3 ^ b * 5 ^ c) q35 h2 a n ha
      rw [← mul_assoc, ← hn] at this
      exact this
    have e3 : stripFactor 3 n (3 ^ b * 5 ^ c) = 5 ^ c * 1 := by
      have := stripFactor_pow_mul 3 (by omega) (5 ^ c * 1) (by omega) h3 b n hb
      rw [mul_one] at this ⊢
      exact this
    have e5 : stripFactor 5 n (5 ^ c * 1) = 1 :=
      stripFactor_pow_mul 5 (by omega) 1 (by omega) h5 c n hc
    rw [e2, e3, e5]

theorem nextOptimalDFTSize_least (m : Nat) (hm : isOptimalDFTSize m = true) :
    ∀ fuel n : Nat, n ≤ m → m < n + fuel →
      isOptimalDFTSize (nextOptimalDFTSize fuel n) = true ∧ nextOptimalDFTSize fuel n ≤ m := by
  intro fuel
  induction fuel with
  | zero => intro n h1 h2; omega
  | succ k ih =>
    intro n h1 h2
    unfold nextOptimalDFTSize
    split_ifs with h
    · exact ⟨h, h1⟩
    · have hne : n ≠ m := by rintro rfl; exact h hm
      exact ih (n + 1) (by omega) (by omega)

theorem exists_optimal_below_double (n : Nat) (hn : 1 ≤ n) :
    ∃ m, isOptimalDFTSize m = true ∧ n ≤ m ∧ m < n + n := by
  refine ⟨2 ^ Nat.clog 2 n, (isOptimalDFTSize_iff _).mpr ⟨Nat.clog 2 n, 0, 0, by simp⟩,
    Nat.le_pow_clog (by omega) n, ?_⟩
  rcases Nat.lt_or_ge 1 n with h | h
  · have h1 := Nat.pow_pred_clog_lt_self (b := 2) (by omega) h
    have hpos : 0 < Nat.clog 2 n := Nat.clog_pos (by omega) (by omega)
    have e : Nat.clog 2 n = (Nat.clog 2 n).pred + 1 := by
      rw [Nat.pred_eq_sub_one]; omega
    rw [e, pow_succ]
    omega
  · have e : n = 1 := by omega
    subst e
    simp

/-- For an argument that is not negative `getOptimalDFTSize` returns the smallest
product of powers of 2, 3 and 5 that is not below the argument. -/
theorem getOptimalDFTSize_least (size0 : Int) (h : 0 ≤ size0) :
    ∃ r : Nat, getOptimalDFTSize size0 = r ∧ transformEfficient r ∧ size0 ≤ r ∧
      ∀ m : Nat, transformEfficient m → size0 ≤ m → r ≤ m := by
  refine ⟨nextOptimalDFTSize (size0.toNat + 1) size0.toNat, ?_, ?_, ?_, ?_⟩
  · unfold getOptimalDFTSize
    rw [if_neg (by omega)]
  · rcases Nat.eq_zero_or_pos size0.toNat with h0 | h0
    · rw [h0]
      exact (isOptimalDFTSize_iff _).mp (by decide)
    · obtain ⟨m, hm, h1, h2⟩ := exists_optimal_below_double size0.toNat h0
      exact (isOptimalDFTSize_iff _).mp
        (nextOptimalDFTSize_least m hm _ _ h1 (by omega)).1
  · have := le_nextOptimalDFTSize (size0.toNat + 1) size0.toNat
    omega
  · intro m hm hle
    rcases Nat.lt_or_ge m (size0.toNat + (size0.toNat + 1)) with hlt | hge
    · exact (nextOptimalDFTSize_least m ((isOptimalDFTSize_iff _).mpr hm) _ _
        (by omega) hlt).2
    · rcases Nat.eq_zero_or_pos size0.toNat with h0 | h0
      · rw [h0]
        have h1 : nextOptimalDFTSize (0 + 1) 0 = 1 := by decide
        rw [h1]
        omega
      · obtain ⟨m', hm', h1, h2⟩ := exists_optimal_below_double size0.toNat h0
        have := (nextOptimalDFTSize_least m' hm' (size0.toNat + 1) size0.toNat h1
          (by omega)).2
        omega

/-! ### Choice of the filter size (C12) -/

/-- The bound of line 115 is a double: for `image_width = 100` and `line_width = 2.07`
it is the double below 721, and the filter size is 720. -/
theorem filterSize_of_rounded_bound :
    roundToDouble ((wideLineParams.image_width : ℚ)
      + roundToDouble (3 * max (sigmaXOf wideLineParams) (sigmaYOf wideLineParams))) < 721 ∧
    (galif_generator.ofParams Real.exp Real.cos Real.sin Real.pi
      wideLineParams)._filterSize = ⟨720, 720⟩ := by
  refine ⟨by decide!, by decide!⟩

/-- C12 fails for `image_width = 85` with the default `line_width = 0.02` and
`lambda = 0.3`: the bound `W + 3 * max(sigma_x, sigma_y)` is `85 + 3 * 1.7 = 90.1`, its
conversion to `int` is 90, and the constructor returns with the filter size 90, which
is below the bound. -/
theorem filterSize_below_padding_bound :
    (1 ≤ narrowParams.image_width ∧ 0 ≤ narrowParams.line_width ∧ 0 ≤ narrowParams.lambda) ∧
    galif_generator.create Real.exp Real.cos Real.sin Real.pi narrowParams
      = .ok (galif_generator.ofParams Real.exp Real.cos Real.sin Real.pi narrowParams) ∧
    (galif_generator.ofParams Real.exp Real.cos Real.sin Real.pi
      narrowParams)._filterSize.width = 90 ∧
    (galif_generator.ofParams Real.exp Real.cos Real.sin Real.pi
      narrowParams)._filterSize.height = 90 ∧
    (narrowParams.image_width : ℚ) + 3 * max (narrowParams.line_width * narrowParams.image_width)
      (narrowParams.lambda * (narrowParams.line_width * narrowParams.image_width)) = 901 / 10 ∧
    ((90 : Nat) : ℚ) < 901 / 10 := by
  have hsize : paddedSizeOf narrowParams = 90 := by decide!
  refine ⟨by decide!, create_ok _ _ _ _ _ (by decide!) (by decide!) rfl, hsize, hsize,
    by decide!, by decide!⟩

/-- C12 (amended): for every configuration with `image_width >= 1`, `line_width >= 0`
and `lambda >= 0` whose constructor returns, with the doubles `sigma_x = line_width * W`, `sigma_y = lambda * sigma_x` and
`bound = W + 3 * max(sigma_x, sigma_y)` as the constructor computes them (every
operation rounded to the nearest double) and `bound` below 2125764000, the last entry
of the table of `cv::getOptimalDFTSize`, the filter size is the smallest product of
powers of 2, 3 and 5 that is not below the integer part of `bound`. -/
theorem filterSize_least_above_truncated_bound (α : Type) [LinearOrderedField α]
    (exp cos sin : α → α) (M_PI : α) (params : Params) (g : galif_generator α)
    (sigma_x sigma_y bound : ℚ)
    (hcreate : galif_generator.create exp cos sin M_PI params = .ok g)
    (_hW : 1 ≤ params.image_width) (hlw : 0 ≤ params.line_width) (_hlam : 0 ≤ params.lambda)
    (hsx : sigma_x = roundToDouble (roundToDouble params.line_width * params.image_width))
    (hsy : sigma_y = roundToDouble (roundToDouble params.lambda * sigma_x))
    (hbound : bound = roundToDouble ((params.image_width : ℚ)
      + roundToDouble (3 * max sigma_x sigma_y)))
    (hrange : bound < 2125764000) :
    ∃ n : Nat, g._filterSize.width = n ∧ g._filterSize.height = n ∧
      transformEfficient n ∧ ⌊bound⌋ ≤ (n : Int) ∧
      (∀ m : Nat, transformEfficient m → ⌊bound⌋ ≤ (m : Int) → n ≤ m) ∧
      n ≤ 2125764000 := by
  obtain ⟨hg, -⟩ := create_spec exp cos sin M_PI params g hcreate
  obtain ⟨hW, -, -⟩ := create_range exp cos sin M_PI params g hcreate
  have hsx' : sigma_x = sigmaXOf params := hsx
  have hsy' : sigma_y = sigmaYOf params := by rw [hsy, hsx']; rfl
  have hb' : bound = roundToDouble ((params.image_width : ℚ)
      + roundToDouble (3 * max (sigmaXOf params) (sigmaYOf params))) := by
    rw [hbound, hsx', hsy']
  have hle := le_paddingBound params hlw hW
  rw [← hb'] at hle
  have hnn : (0 : ℚ) ≤ bound := by
    have hmax : (0 : ℚ) ≤ max (sigmaXOf params) (sigmaYOf params) :=
      le_trans (sigmaXOf_nonneg params hlw) (le_max_left _ _)
    rw [hb']
    exact roundToDouble_nonneg _ (add_nonneg (Nat.cast_nonneg _)
      (roundToDouble_nonneg _ (by positivity)))
  have htr : truncToInt bound = ⌊bound⌋ := by
    unfold truncToInt
    rw [if_pos hnn]
  obtain ⟨n, hn, heff, hge, hleast⟩ := getOptimalDFTSize_least ⌊bound⌋
    (Int.floor_nonneg.mpr hnn)
  have hpad : paddedSizeOf params = n := by
    unfold paddedSizeOf
    rw [← hb', htr, hn]
  have hend : transformEfficient 2125764000 := ⟨5, 12, 3, by norm_num⟩
  have hfl : ⌊bound⌋ ≤ ((2125764000 : Nat) : Int) := by
    have h1 : ⌊bound⌋ ≤ ⌊(2125764000 : ℚ)⌋ := Int.floor_le_floor hrange.le
    have h2 : ⌊(2125764000 : ℚ)⌋ = 2125764000 := by
      have := Int.floor_intCast (α := ℚ) 2125764000
      simpa using this
    rw [h2] at h1
    exact_mod_cast h1
  refine ⟨n, ?_, ?_, heff, hge, hleast, hleast 2125764000 hend hfl⟩
  · rw [hg]; exact hpad
  · rw [hg]; exact hpad

/-- Instance of C12 (amended): the default configuration, with `sigma_x = 5.12...`,
`sigma_y = 1.536...`, `bound = 271.36...` and the filter size 288. -/
theorem filterSize_least_above_truncated_bound_witness :
    (galif_generator.create Real.exp Real.cos Real.sin Real.pi ({} : Params)
        = .ok (galif_generator.ofParams Real.exp Real.cos Real.sin Real.pi ({} : Params)) ∧
      1 ≤ ({} : Params).image_width ∧ (0 : ℚ) ≤ ({} : Params).line_width ∧
      (0 : ℚ) ≤ ({} : Params).lambda ∧
      roundToDouble ((({} : Params).image_width : ℚ)
        + roundToDouble (3 * max (sigmaXOf ({} : Params)) (sigmaYOf ({} : Params))))
        < 2125764000) ∧
    ∃ n : Nat,
      (galif_generator.ofParams Real.exp Real.cos Real.sin Real.pi
        ({} : Params))._filterSize.width = n ∧ transformEfficient n :=
  ⟨⟨create_ok _ _ _ _ _ (by decide!) (by decide!) rfl, by decide!, by decide!, by decide!,
      by decide!⟩, by
    obtain ⟨n, h1, -, h3, -⟩ := filterSize_least_above_truncated_bound ℝ
      Real.exp Real.cos Real.sin Real.pi ({} : Params) _ _ _ _
      (create_ok _ _ _ _ _ (by decide!) (by decide!) rfl) (by decide!) (by decide!)
      (by decide!) rfl rfl rfl (by decide!)
    exact ⟨n, h1, h3⟩⟩

/-! ### The sampling loops visit one point per tile (C11) -/

theorem WritesEntries.congr {α : Type} {E : Nat → α} {A B : Nat → Prop} {T : List α → List α}
    (h : WritesEntries E A T) (hAB : ∀ i, A i ↔ B i) : WritesEntries E B T := by
  intro l
  obtain ⟨h1, h2, h3⟩ := h l
  exact ⟨h1, fun i hi => h2 i ((hAB i).mpr hi), fun i hi => h3 i (fun ha => hi ((hAB i).mp ha))⟩

theorem WritesEntries.comp {α : Type} {E : Nat → α} {A B : Nat → Prop}
    {T1 T2 : List α → List α} (h1 : WritesEntries E A T1) (h2 : WritesEntries E B T2) :
    WritesEntries E (fun i => A i ∨ B i) (fun l => T2 (T1 l)) := by
  intro l
  obtain ⟨a1, a2, a3⟩ := h1 l
  obtain ⟨b1, b2, b3⟩ := h2 (T1 l)
  refine ⟨b1.trans a1, ?_, ?_⟩
  · intro i hi hlt
    by_cases hb : B i
    · exact b2 i hb (by omega)
    · rw [b3 i hb]
      rcases hi with ha | hb'
      · exact a2 i ha hlt
      · exact absurd hb' hb
  · intro i hi
    rw [b3 i (fun hb => hi (Or.inr hb)), a3 i (fun ha => hi (Or.inl ha))]

theorem WritesEntries.foldl {α ι : Type} {E : Nat → α} (A : ι → Nat → Prop)
    (f : List α → ι → List α) :
    ∀ l : List ι, (∀ a ∈ l, WritesEntries E (A a) (fun h => f h a)) →
      WritesEntries E (fun i => ∃ a ∈ l, A a i) (fun h => l.foldl f h) := by
  intro l
  induction l with
  | nil =>
    intro _ h
    exact ⟨rfl, fun i hi => by simp at hi, fun i _ => rfl⟩
  | cons a l ih =>
    intro hall
    have h1 := hall a (List.mem_cons_self _ _)
    have h2 := ih (fun b hb => hall b (List.mem_cons_of_mem _ hb))
    refine (WritesEntries.comp h1 h2).congr ?_
    intro i
    simp only [List.mem_cons, exists_eq_or_imp]

section sampling
variable {α : Type} [LinearOrderedField α]

end sampling


section shape

variable {α : Type} [LinearOrderedField α]

end shape

end imdb
